import Mathlib

/-!
Verification of the PyNBT library (NBT tag model, binary codec, and Region
file container) against its specification.  The Python sources are embedded
shallowly: byte strings become lists of naturals, Python integers become
Lean integers, fallible operations return an Except value whose error
constructor names the Python exception raised, and the on-disk region file
becomes a list of bytes together with a read/write position.  Each
definition carries a comment pointing at the Python source it translates.
-/

/-- Errors raised by the Python code.  Each constructor records which Python
exception the modelled code path raises (TypeError from validate is
valueConstraint, OverflowError from int.to_bytes is overflow, and so on). -/
inductive PyErr where
  | valueConstraint
  | overflow
  | typeErr
  | badUTF8
  | encodeUTF8
  | invalidTagId
  | duplicateName
  | attrErr
  | structErr
  | fuelOut
  | indexErr
  | nameErr
  | invalidArg
  | valueErr
  deriving DecidableEq

/-- Big-endian bytes of a natural number, fixed width (most significant
first); models int.to_bytes(w, byteorder=big, signed=False) on an
in-range value. -/
def natToBytesBE : Nat → Nat → List Nat
  | 0, _ => []
  | w + 1, n => (n / 256 ^ w) % 256 :: natToBytesBE w n

/-- Big-endian value of a byte string; models
int.from_bytes(bs, byteorder=big, signed=False).  On the empty string it
returns 0, exactly as Python does. -/
def bytesToNatBE (bs : List Nat) : Nat :=
  bs.foldl (fun a b => a * 256 + b) 0

/-- Signed big-endian value of a byte string; models
int.from_bytes(bs, byteorder=big, signed=True): the sign is taken from the
top bit of the first byte. -/
def bytesToIntSigned (bs : List Nat) : Int :=
  match bs with
  | [] => 0
  | b :: _ =>
      if 128 ≤ b then (bytesToNatBE bs : Int) - 2 ^ (8 * bs.length)
      else (bytesToNatBE bs : Int)

/-- Signed big-endian encoding, fixed width; models
int.to_bytes(w, byteorder=big, signed=True), which raises OverflowError
outside the representable range. -/
def intToBytesSigned (v : Int) (w : Nat) : Except PyErr (List Nat) :=
  if -(2 ^ (8 * w - 1) : Int) ≤ v ∧ v < 2 ^ (8 * w - 1) then
    .ok (natToBytesBE w (v.emod (2 ^ (8 * w))).toNat)
  else .error .overflow

/-- Unsigned big-endian encoding, fixed width; models
int.to_bytes(w, byteorder=big, signed=False), which raises OverflowError
when the value does not fit. -/
def natToBytesU (n : Nat) (w : Nat) : Except PyErr (List Nat) :=
  if n < 2 ^ (8 * w) then .ok (natToBytesBE w n) else .error .overflow

/-- Reading n bytes from the front of a stream; models fp.read(n) on a
forward-only stream, which returns fewer bytes at end of stream. -/
def readN (n : Nat) (s : List Nat) : List Nat × List Nat := (s.take n, s.drop n)

/-- The NBT tag tree, embedding the twelve concrete classes of
src/nbt/tags (TAG_Byte .. TAG_Long_Array).  A tag name is a Python string
or None, modelled as an optional list of Unicode code points.  Float and
Double tags carry their IEEE-754 big-endian byte pattern (4 and 8 bytes
respectively): no claim depends on float arithmetic, and
struct.pack/unpack round-trips the pattern bit-exactly, so the pattern is
the faithful payload-level view.  A list tag stores the type id of its
element class (0 when the Python list type is None). -/
inductive NBTTag where
  | TAG_Byte (name : Option (List Nat)) (value : Int)
  | TAG_Short (name : Option (List Nat)) (value : Int)
  | TAG_Int (name : Option (List Nat)) (value : Int)
  | TAG_Long (name : Option (List Nat)) (value : Int)
  | TAG_Float (name : Option (List Nat)) (bits : List Nat)
  | TAG_Double (name : Option (List Nat)) (bits : List Nat)
  | TAG_Byte_Array (name : Option (List Nat)) (values : List Int)
  | TAG_String (name : Option (List Nat)) (value : List Nat)
  | TAG_List (name : Option (List Nat)) (etype : Nat) (elems : List NBTTag)
  | TAG_Compound (name : Option (List Nat)) (children : List NBTTag)
  | TAG_Int_Array (name : Option (List Nat)) (values : List Int)
  | TAG_Long_Array (name : Option (List Nat)) (values : List Int)

/-- Name of a tag (NBTTag.name in src/nbt/NBTTag.py). -/
def NBTTag.name : NBTTag → Option (List Nat)
  | TAG_Byte n _ | TAG_Short n _ | TAG_Int n _ | TAG_Long n _
  | TAG_Float n _ | TAG_Double n _ | TAG_Byte_Array n _ | TAG_String n _
  | TAG_List n _ _ | TAG_Compound n _ | TAG_Int_Array n _ | TAG_Long_Array n _ => n

/-- Tag type id (the get_id classmethods in src/nbt/tags). -/
def NBTTag.get_id : NBTTag → Nat
  | TAG_Byte _ _ => 1 | TAG_Short _ _ => 2 | TAG_Int _ _ => 3 | TAG_Long _ _ => 4
  | TAG_Float _ _ => 5 | TAG_Double _ _ => 6 | TAG_Byte_Array _ _ => 7
  | TAG_String _ _ => 8 | TAG_List _ _ _ => 9 | TAG_Compound _ _ => 10
  | TAG_Int_Array _ _ => 11 | TAG_Long_Array _ _ => 12

/-- Whether a tag class inherits __eq__ from the NBTTag base class, i.e. is
none of TAG_Compound and TAG_List (which override __eq__). -/
def NBTTag.usesBaseEq : NBTTag → Bool
  | .TAG_List _ _ _ | .TAG_Compound _ _ => false
  | _ => true

/-- Code points Python can encode to UTF-8: scalar values below 0x110000
that are not surrogates (str.encode raises UnicodeEncodeError on
surrogates). -/
def validCp (c : Nat) : Bool := c < 0x110000 && !(0xD800 ≤ c && c ≤ 0xDFFF)

/-- Standard UTF-8 encoding of one code point (1 to 4 bytes). -/
def utf8EncodeChar (c : Nat) : List Nat :=
  if c < 0x80 then [c]
  else if c < 0x800 then [0xC0 + c / 64, 0x80 + c % 64]
  else if c < 0x10000 then [0xE0 + c / 4096, 0x80 + (c / 64) % 64, 0x80 + c % 64]
  else [0xF0 + c / 262144, 0x80 + (c / 4096) % 64, 0x80 + (c / 64) % 64, 0x80 + c % 64]

/-- UTF-8 encoding of a code point sequence. -/
def utf8Encode (s : List Nat) : List Nat := (s.map utf8EncodeChar).flatten

/-- Models str.encode(encoding=UTF-8): fails with UnicodeEncodeError on a
lone surrogate, otherwise yields the UTF-8 bytes. -/
def pyEncodeUTF8 (s : List Nat) : Except PyErr (List Nat) :=
  if s.all validCp then .ok (utf8Encode s) else .error .encodeUTF8

/-- A UTF-8 continuation byte. -/
def isCont (b : Nat) : Bool := 0x80 ≤ b && b ≤ 0xBF

mutual

/-- Strict UTF-8 decoding, models str(bs, encoding=UTF-8) which raises
UnicodeDecodeError (here: none) on malformed input: overlong forms,
surrogates, out-of-range values and truncated sequences are rejected.  The
continuation handling for 2-, 3- and 4-byte sequences lives in three
mutually recursive helpers so the branch structure stays first-order. -/
def utf8Decode : List Nat → Option (List Nat)
  | [] => some []
  | b0 :: rest =>
    if b0 < 0x80 then (utf8Decode rest).map (b0 :: ·)
    else if b0 < 0xC2 then none
    else if b0 < 0xE0 then utf8Decode2 b0 rest
    else if b0 < 0xF0 then utf8Decode3 b0 rest
    else if b0 < 0xF5 then utf8Decode4 b0 rest
    else none

/-- Continuation of utf8Decode for a 2-byte sequence. -/
def utf8Decode2 (b0 : Nat) : List Nat → Option (List Nat)
  | b1 :: rest2 =>
      if isCont b1 then (utf8Decode rest2).map (((b0 - 0xC0) * 64 + (b1 - 0x80)) :: ·)
      else none
  | [] => none

/-- Continuation of utf8Decode for a 3-byte sequence. -/
def utf8Decode3 (b0 : Nat) : List Nat → Option (List Nat)
  | b1 :: b2 :: rest3 =>
      if (if b0 = 0xE0 then 0xA0 ≤ b1 && b1 ≤ 0xBF
          else if b0 = 0xED then 0x80 ≤ b1 && b1 ≤ 0x9F
          else isCont b1) && isCont b2 then
        (utf8Decode rest3).map (((b0 - 0xE0) * 4096 + (b1 - 0x80) * 64 + (b2 - 0x80)) :: ·)
      else none
  | _ => none

/-- Continuation of utf8Decode for a 4-byte sequence. -/
def utf8Decode4 (b0 : Nat) : List Nat → Option (List Nat)
  | b1 :: b2 :: b3 :: rest4 =>
      if (if b0 = 0xF0 then 0x90 ≤ b1 && b1 ≤ 0xBF
          else if b0 = 0xF4 then 0x80 ≤ b1 && b1 ≤ 0x8F
          else isCont b1) && isCont b2 && isCont b3 then
        (utf8Decode rest4).map
          (((b0 - 0xF0) * 262144 + (b1 - 0x80) * 4096 + (b2 - 0x80) * 64 + (b3 - 0x80)) :: ·)
      else none
  | _ => none

end

mutual

/-- Models a Python == comparison between two DISTINCT tag objects (the
`self is other` fast path of NBTTag.__eq__ line 14 and of CPython rich
comparison is therefore false), with `other` not None.  Dispatch follows
type(a).__eq__: TAG_Compound.__eq__ (src/nbt/tags/TAG_Compound.py lines
44-63) and TAG_List.__eq__ (src/nbt/tags/TAG_List.py lines 67-88) are
overridden; every other class falls through to NBTTag.__eq__
(src/nbt/NBTTag.py lines 13-22), whose line 18 evaluates the identifier
TAG_Generic, which is defined nowhere in the repository, so Python raises
NameError there. -/
def pyEq (fuel : Nat) (a b : NBTTag) : Except PyErr Bool :=
  match fuel with
  | 0 => .error .fuelOut
  | fuel + 1 =>
    match a with
    | .TAG_Compound nm ch =>
        match b with
        | .TAG_Compound nm2 ch2 =>
            if nm ≠ nm2 then .ok false
            else if ch.length ≠ ch2.length then .ok false
            else pyEqAll fuel ch ch2
        | _ => .ok false
    | .TAG_List nm ty es =>
        match b with
        | .TAG_List nm2 ty2 es2 =>
            if nm ≠ nm2 then .ok false
            else if ty ≠ ty2 then .ok false
            else if es.length ≠ es2.length then .ok false
            else pyEqAll fuel es es2
        | _ => .ok false
    | _ => .error .nameErr

/-- For-loop of TAG_Compound.__eq__ / TAG_List.__eq__: every element of the
first list must compare equal to some element of the second. -/
def pyEqAll (fuel : Nat) (xs ys : List NBTTag) : Except PyErr Bool :=
  match fuel with
  | 0 => .error .fuelOut
  | fuel + 1 =>
    match xs with
    | [] => .ok true
    | x :: rest => do
        let found ← pyEqAny fuel x ys
        if found then pyEqAll fuel rest ys else .ok false

/-- Inner loop: scan for the first element of ys comparing equal to x. -/
def pyEqAny (fuel : Nat) (x : NBTTag) (ys : List NBTTag) : Except PyErr Bool :=
  match fuel with
  | 0 => .error .fuelOut
  | fuel + 1 =>
    match ys with
    | [] => .ok false
    | y :: rest => do
        let b ← pyEq fuel x y
        if b then .ok true else pyEqAny fuel x rest

end

/-- Models CPython list.remove(target) where target is the object stored at
index i of the list (the object returned by TAG_Compound.get).  CPython
compares elements left to right with an identity fast path followed by ==;
objects in a compound are distinct, so for positions before i the identity
test fails and == runs (raising NameError when a scalar tag is involved,
see pyEq), and at position i the identity test succeeds and the element is
removed. -/
def list_remove_scan (fuel : Nat) (target : NBTTag) :
    List NBTTag → Nat → Except PyErr (List NBTTag)
  | [], _ => .error .valueErr
  | _ :: es, 0 => .ok es
  | e :: es, i + 1 => do
      let b ← pyEq fuel e target
      if b then .ok es
      else (list_remove_scan fuel target es i).map (e :: ·)

/-- TAG_Compound.get (src/nbt/tags/TAG_Compound.py lines 173-175): first
child whose name equals the key, or None. -/
def TAG_Compound.get (children : List NBTTag) (key : Option (List Nat)) : Option NBTTag :=
  children.find? (fun t => decide (t.name = key))

/-- TAG_Compound.add (src/nbt/tags/TAG_Compound.py lines 120-136) acting on
the child list: scan for the first child with the same name; raise
ValueError when found and replace is false; when found and replace is true,
list.remove it and insert the new tag at its position; otherwise append. -/
def TAG_Compound.add (fuel : Nat) (children : List NBTTag) (tag : NBTTag)
    (replace : Bool) : Except PyErr (List NBTTag) :=
  match children.findIdx? (fun x => decide (x.name = tag.name)) with
  | none => .ok (children ++ [tag])
  | some i =>
      if replace then do
        let pruned ← list_remove_scan fuel (children.getD i (.TAG_Byte none 0)) children i
        .ok (pruned.insertIdx i tag)
      else .error .duplicateName

/-- TAG_Compound.__delitem__ (src/nbt/tags/TAG_Compound.py lines 26-30)
acting on the child list: get(key), raise IndexError when the name is
absent, else list.remove the found tag object. -/
def TAG_Compound.delitem (fuel : Nat) (children : List NBTTag) (key : List Nat) :
    Except PyErr (List NBTTag) :=
  match children.findIdx? (fun t => decide (t.name = some key)) with
  | none => .error .indexErr
  | some i => list_remove_scan fuel (children.getD i (.TAG_Byte none 0)) children i

/-- Range check performed by NBTTag_Integer.validate
(src/nbt/tags/__tags.py lines 16-18) for the element width w of an array
class; raises TypeError when the value is out of range. -/
def validateIntRange (v : Int) (w : Nat) : Except PyErr Unit :=
  if -(2 ^ (8 * w - 1) : Int) ≤ v ∧ v < 2 ^ (8 * w - 1) then .ok ()
  else .error .valueConstraint

/-- Element loop of NBTTag_Array.payload (src/nbt/tags/__tags.py lines
39-43): each element is passed through the element class constructor
(which validates it) and encoded. -/
def NBTTag_Array.payload_body (w : Nat) : List Int → Except PyErr (List Nat)
  | [] => .ok []
  | v :: vs => do
      let _ ← validateIntRange v w
      let b ← intToBytesSigned v w
      let rest ← NBTTag_Array.payload_body w vs
      .ok (b ++ rest)

/-- NBTTag_Array.payload (src/nbt/tags/__tags.py lines 39-43): a TAG_Int
length prefix (whose constructor validates the length) followed by the
element encodings. -/
def NBTTag_Array.payload (vs : List Int) (w : Nat) : Except PyErr (List Nat) := do
  let _ ← validateIntRange (vs.length : Int) 4
  let lenb ← intToBytesSigned (vs.length : Int) 4
  let body ← NBTTag_Array.payload_body w vs
  .ok (lenb ++ body)

mutual

/-- NBTTag.payload dispatch: the payload methods of the twelve classes of
src/nbt/tags.  Scalars encode signed big-endian at their width
(src/nbt/tags/__tags.py); TAG_Float/TAG_Double emit their
struct.pack(>f / >d) byte pattern; TAG_String (lines 198-200) encodes the
value to UTF-8 and prefixes the byte length via a TAG_Short whose
constructor validates the length against [-32768, 32767]; TAG_List
(src/nbt/tags/TAG_List.py lines 104-110) emits a TAG_Byte type id, a
TAG_Int length, then the element payloads without names. -/
def NBTTag.payload : NBTTag → Except PyErr (List Nat)
  | .TAG_Byte _ v => intToBytesSigned v 1
  | .TAG_Short _ v => intToBytesSigned v 2
  | .TAG_Int _ v => intToBytesSigned v 4
  | .TAG_Long _ v => intToBytesSigned v 8
  | .TAG_Float _ bits => .ok bits
  | .TAG_Double _ bits => .ok bits
  | .TAG_Byte_Array _ vs => NBTTag_Array.payload vs 1
  | .TAG_String _ s => do
      let text ← pyEncodeUTF8 s
      if (-32768 : Int) ≤ (text.length : Int) ∧ (text.length : Int) ≤ 32767 then do
        let pfx ← intToBytesSigned (text.length : Int) 2
        .ok (pfx ++ text)
      else .error .valueConstraint
  | .TAG_List _ ty es => do
      let tyb ← intToBytesSigned (ty : Int) 1
      let _ ← validateIntRange (es.length : Int) 4
      let lenb ← intToBytesSigned (es.length : Int) 4
      let body ← TAG_List.payload_body es
      .ok (tyb ++ lenb ++ body)
  | .TAG_Compound _ ch => TAG_Compound.payload ch
  | .TAG_Int_Array _ vs => NBTTag_Array.payload vs 4
  | .TAG_Long_Array _ vs => NBTTag_Array.payload vs 8

/-- Element loop of TAG_List.payload (src/nbt/tags/TAG_List.py lines
108-109): concatenated element payloads, no names. -/
def TAG_List.payload_body : List NBTTag → Except PyErr (List Nat)
  | [] => .ok []
  | t :: ts => do
      let pl ← NBTTag.payload t
      let rest ← TAG_List.payload_body ts
      .ok (pl ++ rest)

/-- TAG_Compound.payload (src/nbt/tags/TAG_Compound.py lines 86-94) acting
on the child list: for each child, a one-byte id, a two-byte unsigned
prefix holding len(tag.name) - the CHARACTER count of the Python string,
line 90 - then the UTF-8 bytes of the name and the child payload; a
terminating zero byte ends the compound. -/
def TAG_Compound.payload : List NBTTag → Except PyErr (List Nat)
  | [] => .ok [0]
  | t :: ts => do
      let nm ← match t.name with
               | some s => Except.ok s
               | none => Except.error PyErr.typeErr
      let nmLen ← natToBytesU nm.length 2
      let nmBytes ← pyEncodeUTF8 nm
      let pl ← NBTTag.payload t
      let rest ← TAG_Compound.payload ts
      .ok (t.get_id :: (nmLen ++ nmBytes ++ pl ++ rest))

end

/-- Element loop of NBTTag_Array.load (src/nbt/tags/__tags.py lines 45-51):
read the fixed-width signed value for each of the given count of
elements; a short read at end of stream yields bytes that decode as 0,
as int.from_bytes does on fewer (or zero) bytes. -/
def NBTTag_Array.load_elems (w : Nat) : Nat → List Nat → List Int × List Nat
  | 0, s => ([], s)
  | n + 1, s =>
      let (bs, s1) := readN w s
      let (vs, s2) := NBTTag_Array.load_elems w n s1
      (bytesToIntSigned bs :: vs, s2)

mutual

/-- Dispatch of the load classmethods by tag id (nbt.tags.get_tag_type plus
tag_type.load).  The fuel argument bounds recursion depth and loop count
and is a modelling artifact only: every Python execution is reproduced by
any sufficiently large fuel.  TAG_Float/TAG_Double use
struct.unpack(>f / >d), which raises struct.error unless exactly 4/8 bytes
were read; integer loads use int.from_bytes, which accepts short reads;
TAG_String.load (src/nbt/tags/__tags.py lines 202-206) reads a SIGNED
two-byte length prefix and then that many bytes (a negative length makes
fp.read read the whole rest of the stream); TAG_List.load
(src/nbt/tags/TAG_List.py lines 112-120) reads a type id and length, and
when the resolved element class is None (id outside 1..12) with a positive
length, Python raises AttributeError on None.load. -/
def NBTTag.load : Nat → Nat → Option (List Nat) → List Nat →
    Except PyErr (NBTTag × List Nat)
  | 0, _, _, _ => .error .fuelOut
  | _ + 1, 1, nm, s => let (bs, s1) := readN 1 s; .ok (.TAG_Byte nm (bytesToIntSigned bs), s1)
  | _ + 1, 2, nm, s => let (bs, s1) := readN 2 s; .ok (.TAG_Short nm (bytesToIntSigned bs), s1)
  | _ + 1, 3, nm, s => let (bs, s1) := readN 4 s; .ok (.TAG_Int nm (bytesToIntSigned bs), s1)
  | _ + 1, 4, nm, s => let (bs, s1) := readN 8 s; .ok (.TAG_Long nm (bytesToIntSigned bs), s1)
  | _ + 1, 5, nm, s =>
      let (bs, s1) := readN 4 s
      if bs.length = 4 then .ok (.TAG_Float nm bs, s1) else .error .structErr
  | _ + 1, 6, nm, s =>
      let (bs, s1) := readN 8 s
      if bs.length = 8 then .ok (.TAG_Double nm bs, s1) else .error .structErr
  | _ + 1, 7, nm, s =>
      let (lb, s1) := readN 4 s
      let (vs, s2) := NBTTag_Array.load_elems 1 (bytesToIntSigned lb).toNat s1
      .ok (.TAG_Byte_Array nm vs, s2)
  | _ + 1, 8, nm, s =>
      let (lb, s1) := readN 2 s
      let len := bytesToIntSigned lb
      let (bs, s2) := if len < 0 then (s1, ([] : List Nat)) else readN len.toNat s1
      match utf8Decode bs with
      | some v => .ok (.TAG_String nm v, s2)
      | none => .error .badUTF8
  | fuel + 1, 9, nm, s => do
      let (tyb, s1) := readN 1 s
      let tyv := bytesToIntSigned tyb
      let ty : Nat := if 1 ≤ tyv ∧ tyv ≤ 12 then tyv.toNat else 0
      let (lb, s2) := readN 4 s1
      let len := (bytesToIntSigned lb).toNat
      if ty = 0 ∧ 0 < len then .error .attrErr
      else do
        let (es, s3) ← TAG_List.load_elems fuel ty len s2
        .ok (.TAG_List nm ty es, s3)
  | fuel + 1, 10, nm, s => do
      let (ch, s1) ← TAG_Compound.load_body fuel [] s
      .ok (.TAG_Compound nm ch, s1)
  | _ + 1, 11, nm, s =>
      let (lb, s1) := readN 4 s
      let (vs, s2) := NBTTag_Array.load_elems 4 (bytesToIntSigned lb).toNat s1
      .ok (.TAG_Int_Array nm vs, s2)
  | _ + 1, 12, nm, s =>
      let (lb, s1) := readN 4 s
      let (vs, s2) := NBTTag_Array.load_elems 8 (bytesToIntSigned lb).toNat s1
      .ok (.TAG_Long_Array nm vs, s2)
  | _ + 1, _, _, _ => .error .invalidTagId

/-- Element loop of TAG_List.load: each element is loaded with name None. -/
def TAG_List.load_elems : Nat → Nat → Nat → List Nat →
    Except PyErr (List NBTTag × List Nat)
  | 0, _, _, _ => .error .fuelOut
  | _ + 1, _, 0, s => .ok ([], s)
  | fuel + 1, ty, n + 1, s => do
      let (t, s1) ← NBTTag.load fuel ty none s
      let (ts, s2) ← TAG_List.load_elems fuel ty n s1
      .ok (t :: ts, s2)

/-- Child loop of TAG_Compound.load (src/nbt/tags/TAG_Compound.py lines
96-118): read a one-byte id (an empty read at end of stream decodes as 0
and is treated as the End marker), stop on id 0; otherwise read an
unsigned two-byte name length, that many name bytes (decoded as UTF-8,
raising on malformed data), resolve the tag class (IOError when the id is
unknown), load the child and add it to the compound with replace=False
(raising ValueError on a duplicate name). -/
def TAG_Compound.load_body : Nat → List NBTTag → List Nat →
    Except PyErr (List NBTTag × List Nat)
  | 0, _, _ => .error .fuelOut
  | fuel + 1, acc, s =>
      let (idb, s1) := readN 1 s
      let tid := bytesToNatBE idb
      if tid = 0 then .ok (acc, s1)
      else
        let (nlb, s2) := readN 2 s1
        let nlen := bytesToNatBE nlb
        let (nb, s3) := readN nlen s2
        match utf8Decode nb with
        | none => .error .badUTF8
        | some nm =>
          if 1 ≤ tid ∧ tid ≤ 12 then do
            let (tag, s4) ← NBTTag.load fuel tid (some nm) s3
            let acc2 ← TAG_Compound.add 0 acc tag false
            TAG_Compound.load_body fuel acc2 s4
          else .error .invalidTagId

end

/-- TAG_Compound.load itself: parse the child list and build the compound
with the externally supplied name. -/
def TAG_Compound.load (fuel : Nat) (nm : Option (List Nat)) (s : List Nat) :
    Except PyErr (NBTTag × List Nat) := do
  let (ch, s1) ← TAG_Compound.load_body fuel [] s
  .ok (.TAG_Compound nm ch, s1)

/-- A random-access binary file: its byte content and the current position,
as used through self.__fp in src/nbt/RegionFile.py. -/
structure PFile where
  data : List Nat
  pos : Nat

/-- Models fp.seek(p) (absolute). -/
def PFile.seekTo (f : PFile) (p : Nat) : PFile := ⟨f.data, p⟩

/-- Models fp.seek(off, 1) (relative to the current position). -/
def PFile.seekCur (f : PFile) (off : Nat) : PFile := ⟨f.data, f.pos + off⟩

/-- Models fp.read(n): up to n bytes from the current position, advancing
by the number of bytes actually read. -/
def PFile.readNF (f : PFile) (n : Nat) : List Nat × PFile :=
  let bs := (f.data.drop f.pos).take n
  (bs, ⟨f.data, f.pos + bs.length⟩)

/-- Models fp.read() without argument: the rest of the file. -/
def PFile.readAll (f : PFile) : List Nat × PFile :=
  let bs := f.data.drop f.pos
  (bs, ⟨f.data, f.pos + bs.length⟩)

/-- Models fp.write(bs): overwrite at the current position, zero-filling
any gap when the position is past the end, extending the file as needed. -/
def PFile.write (f : PFile) (bs : List Nat) : PFile :=
  let base := f.data ++ List.replicate (f.pos - f.data.length) 0
  ⟨base.take f.pos ++ bs ++ base.drop (f.pos + bs.length), f.pos + bs.length⟩

/-- Models fp.truncate(): cut the file at the current position. -/
def PFile.trunc (f : PFile) : PFile := ⟨f.data.take f.pos, f.pos⟩

/-- The value view returned by the NBTTag.value property: compounds and
lists return the tag object itself (their value property returns self),
scalar classes return the stored Python value. -/
inductive ChunkVal where
  | tag (t : NBTTag)
  | scalar (v : Int)
  | str (s : List Nat)
  | arr (vs : List Int)
  | bits (bs : List Nat)

/-- NBTTag.value property (src/nbt/NBTTag.py lines 24-26, overridden by
TAG_Compound and TAG_List to return self). -/
def NBTTag.value : NBTTag → ChunkVal
  | .TAG_Byte _ v | .TAG_Short _ v | .TAG_Int _ v | .TAG_Long _ v => .scalar v
  | .TAG_Float _ b | .TAG_Double _ b => .bits b
  | .TAG_String _ s => .str s
  | .TAG_Byte_Array _ vs | .TAG_Int_Array _ vs | .TAG_Long_Array _ vs => .arr vs
  | t => .tag t

/-- In-memory state of a RegionFile (src/nbt/RegionFile.py lines 9-20).
The Python 32x32 nested lists indexed as table[x][z] are flattened to
1024-entry lists at index x + z * 32: this bijection matches both the
nested indexing (for x, z below 32) and the order in which __load_header
and the fix-up loop of __resize_chunk walk the header (z outer, x inner,
so iteration number z * 32 + x touches table[x][z] and header offset
4 * (x + z * 32)). -/
structure RegionState where
  locations : List Int
  timestamps : List Int
  chunks : List (Option ChunkVal)
  file : PFile

/-- Models value.to_bytes(4, byteorder=big, signed=False) on a Python int:
raises OverflowError outside [0, 2^32). -/
def u32Bytes (v : Int) : Except PyErr (List Nat) :=
  if 0 ≤ v ∧ v < 2 ^ 32 then .ok (natToBytesBE 4 v.toNat) else .error .overflow

/-- RegionFile.__extract_loc (src/nbt/RegionFile.py lines 206-209): the
Python shift loc >> 8 is floor division by 256 (Int.fdiv) and the mask
loc & 0xFF is the nonnegative remainder (Int.emod), for every Python
integer including negative ones. -/
def RegionFile.extract_loc (loc : Int) : Int × Int := (loc.fdiv 256, loc.emod 256)

/-- Fix-up loop of RegionFile.__resize_chunk (src/nbt/RegionFile.py lines
226-236), walking the 1024 location entries in header order: an entry whose
offset is strictly greater than the resized slot's offset is shifted by the
size change and its four header bytes are rewritten in place; any other
entry is skipped with a relative seek of 4 bytes. -/
def RegionFile.fixup (offset delta : Int) : List Int → PFile →
    Except PyErr (List Int × PFile)
  | [], f => .ok ([], f)
  | e :: es, f =>
      let cur_offset := (RegionFile.extract_loc e).1
      let cur_size := (RegionFile.extract_loc e).2
      if offset < cur_offset then do
        let v := (cur_offset + delta) * 256 + cur_size
        let bs ← u32Bytes v
        let (es2, f2) ← RegionFile.fixup offset delta es (f.write bs)
        .ok (v :: es2, f2)
      else do
        let (es2, f2) ← RegionFile.fixup offset delta es (f.seekCur 4)
        .ok (e :: es2, f2)

/-- RegionFile.__resize_chunk (src/nbt/RegionFile.py lines 215-236): update
the slot's location entry ((offset << 8) + size, or 0 when the new size is
0) and its timestamp (now = int(time.time()), an external input here), seek
to the slot's 4-byte location entry at 4 * ((x mod 32) + (z mod 32) * 32)
and write it, then seek FORWARD BY 4096 FROM THE CURRENT POSITION (which is
already 4 bytes past the entry) and write the timestamp, then run the
fix-up loop from the start of the file. -/
def RegionFile.resize_chunk (st : RegionState) (x z : Nat) (size now : Int) :
    Except PyErr RegionState := do
  let idx := x + z * 32
  let loc := st.locations.getD idx 0
  let offset := (RegionFile.extract_loc loc).1
  let old_size := (RegionFile.extract_loc loc).2
  let newLoc : Int := if 0 < size then offset * 256 + size else 0
  let locs1 := st.locations.set idx newLoc
  let tss1 := st.timestamps.set idx now
  let b1 ← u32Bytes newLoc
  let f1 := (st.file.seekTo (4 * (x % 32 + z % 32 * 32))).write b1
  let b2 ← u32Bytes now
  let f2 := (f1.seekCur 4096).write b2
  let (locs2, f4) ← RegionFile.fixup offset (size - old_size) locs1 (f2.seekTo 0)
  .ok { st with locations := locs2, timestamps := tss1, file := f4 }

/-- Decompression step of RegionFile.load_chunk (src/nbt/RegionFile.py
lines 89-93): gzip for id 1, zlib for id 2, and NO branch otherwise - any
other id leaves the data untouched.  The decompressors are external
collaborators passed as functions (they can fail on malformed input). -/
def RegionFile.decompress_step (gunzip unzlib : List Nat → Except PyErr (List Nat))
    (compression : Nat) (data : List Nat) : Except PyErr (List Nat) :=
  if compression = 1 then gunzip data
  else if compression = 2 then unzlib data
  else .ok data

/-- RegionFile.load_chunk (src/nbt/RegionFile.py lines 74-103): return None
for an absent slot; otherwise seek to offset * 4096, read the 4-byte
unsigned length, the 1-byte compression id and length - 1 payload bytes
(length 0 makes fp.read(-1) read the rest of the file), decompress,
decode a top-level compound with name None, and store and return the value
of its child named by the empty string (the lookup raises IndexError when
that child is absent). -/
def RegionFile.load_chunk (gunzip unzlib : List Nat → Except PyErr (List Nat))
    (fuel : Nat) (st : RegionState) (x z : Nat) :
    Except PyErr (RegionState × Option ChunkVal) :=
  let idx := x + z * 32
  let loc := st.locations.getD idx 0
  if loc = 0 then .ok (st, none)
  else do
    let offset := ((RegionFile.extract_loc loc).1).toNat
    let f1 := st.file.seekTo (4096 * offset)
    let (lengthBytes, f2) := f1.readNF 4
    let length := bytesToNatBE lengthBytes
    let (cb, f3) := f2.readNF 1
    let compression := bytesToNatBE cb
    let (data0, f4) := if length = 0 then f3.readAll else f3.readNF (length - 1)
    let data ← RegionFile.decompress_step gunzip unzlib compression data0
    let (chunk, _) ← TAG_Compound.load fuel none data
    let ch := match chunk with
              | .TAG_Compound _ ch => ch
              | _ => []
    match TAG_Compound.get ch (some []) with
    | none => .error .indexErr
    | some t =>
        let v := NBTTag.value t
        .ok ({ st with chunks := st.chunks.set idx (some v), file := f4 }, some v)

/-- Code points of the string gzip. -/
def gzipName : List Nat := [103, 122, 105, 112]

/-- Code points of the string zlib. -/
def zlibName : List Nat := [122, 108, 105, 98]

/-- Code points of the string none. -/
def noneName : List Nat := [110, 111, 110, 101]

/-- Compression selection of RegionFile.save_chunk (src/nbt/RegionFile.py
lines 134-147): pick the compressor function and its id byte from the
selector string, raising ValueError for an unknown selector. -/
def RegionFile.select_compression (gzipC zlibC : List Nat → List Nat)
    (compression : List Nat) (data : List Nat) : Except PyErr (List Nat × Nat) :=
  if compression = gzipName then .ok (gzipC data, 1)
  else if compression = zlibName then .ok (zlibC data, 2)
  else if compression = noneName then .ok (data, 3)
  else .error PyErr.valueErr

/-- Resize-and-splice tail of RegionFile.save_chunk (src/nbt/RegionFile.py
lines 153-173): resize the slot to the blob's sector count, read and hold
the bytes after the old blob, write the new blob at the slot's byte offset,
re-append the held tail and truncate. -/
def RegionFile.splice_blob (st1 : RegionState) (x z : Nat) (offsetB oldB : Nat)
    (blob : List Nat) (now : Int) : Except PyErr RegionState := do
  let st2 ← RegionFile.resize_chunk st1 x z ((blob.length / 4096 : Nat) : Int) now
  let (after, f2) := (st2.file.seekTo (offsetB + oldB)).readAll
  let f3 := (f2.seekTo offsetB).write blob
  let f5 := (f3.write after).trunc
  .ok { st2 with file := f5 }

/-- Blob construction of RegionFile.save_chunk (src/nbt/RegionFile.py lines
148-152): 4-byte unsigned length prefix holding payload length + 1, the
one-byte compression id, the payload, zero-padding to a 4096 multiple. -/
def RegionFile.build_blob (data2 : List Nat) (cid : Nat) : Except PyErr (List Nat) := do
  let lenb ← u32Bytes ((data2.length : Int) + 1)
  let blob0 := lenb ++ cid :: data2
  .ok (blob0 ++ List.replicate ((4096 - blob0.length % 4096) % 4096) 0)

/-- RegionFile.save_chunk (src/nbt/RegionFile.py lines 125-173): no-op when
the in-memory slot is empty; otherwise wrap the cached value in a fresh
compound named by the empty string (add raises TypeError unless the value
is a tag), encode its payload, compress per the selector string (gzip |
zlib | none, anything else raises ValueError), build the blob (4-byte
unsigned length = payload + 1, 1-byte compression id, payload, zero-pad to
a 4096 multiple), initialise the slot's offset from the file length when
absent (int(tell / 4096) << 8, size 0), resize via __resize_chunk to the
blob's sector count, and splice: preserve the bytes after the old blob,
write the new blob at the old offset, re-append the preserved tail, and
truncate.  The compressors are external collaborators passed as
functions. -/
def RegionFile.save_chunk (gzipC zlibC : List Nat → List Nat) (st : RegionState)
    (x z : Nat) (compression : List Nat) (now : Int) : Except PyErr RegionState :=
  let idx := x + z * 32
  match st.chunks.getD idx none with
  | none => .ok st
  | some cv => do
    let c ← match cv with
            | .tag t => Except.ok t
            | _ => Except.error PyErr.typeErr
    let data ← TAG_Compound.payload [c]
    let dc ← RegionFile.select_compression gzipC zlibC compression data
    let blob ← RegionFile.build_blob dc.1 dc.2
    let st1 :=
      if st.locations.getD idx 0 = 0 then
        { st with locations :=
            st.locations.set idx ((st.file.data.length / 4096 : Nat) * 256 : Int) }
      else st
    let loc := st1.locations.getD idx 0
    let offsetB := ((RegionFile.extract_loc loc).1).toNat * 4096
    let oldB := ((RegionFile.extract_loc loc).2).toNat * 4096
    RegionFile.splice_blob st1 x z offsetB oldB blob now

/-- RegionFile.set_chunk (src/nbt/RegionFile.py lines 70-72): store a value
in the in-memory slot without touching the disk. -/
def RegionFile.set_chunk (st : RegionState) (x z : Nat) (c : Option ChunkVal) :
    RegionState :=
  { st with chunks := st.chunks.set (x + z * 32) c }

mutual

/-- The tag trees on which the codec roundtrips.  This predicate is
STRICTLY NARROWER than the validity the Python constructors and mutators
maintain.  It contains the constructor-checked conditions - scalar values
within their variant's range, float and double patterns of the right
width, array elements within the element range and array and list lengths
within TAG_Int range, strings of valid code points, lists homogeneous with
unnamed elements and a set type when nonempty, compound children uniquely
named by names of string length below 65536 - and on top of them two
conditions no constructor enforces, each excluding inputs on which the
encoder itself is broken: every compound child name in the tree must be
thin (all code points below 128, so that the character count line 90 of
TAG_Compound.payload writes as the name prefix coincides with the UTF-8
byte count the wire format needs; a fatter name makes the encoder output
undecodable bytes, the C1 bug), and every string value's UTF-8 byte length
must be at most 32767 (the length prefix is built as a TAG_Short, so a
longer string makes the encoder raise, the C7 bug). -/
def validTag : NBTTag → Bool
  | .TAG_Byte _ v => decide (-128 ≤ v ∧ v ≤ 127)
  | .TAG_Short _ v => decide (-32768 ≤ v ∧ v ≤ 32767)
  | .TAG_Int _ v => decide (-2147483648 ≤ v ∧ v ≤ 2147483647)
  | .TAG_Long _ v => decide (-9223372036854775808 ≤ v ∧ v ≤ 9223372036854775807)
  | .TAG_Float _ bits => decide (bits.length = 4)
  | .TAG_Double _ bits => decide (bits.length = 8)
  | .TAG_Byte_Array _ vs =>
      vs.all (fun v => decide (-128 ≤ v ∧ v ≤ 127)) && decide ((vs.length : Int) ≤ 2147483647)
  | .TAG_String _ s => s.all validCp && decide ((utf8Encode s).length ≤ 32767)
  | .TAG_List _ ty es =>
      decide (ty ≤ 12) && (es.isEmpty || decide (1 ≤ ty)) &&
      decide ((es.length : Int) ≤ 2147483647) && validElems ty es
  | .TAG_Compound _ ch => validChildren ch
  | .TAG_Int_Array _ vs =>
      vs.all (fun v => decide (-2147483648 ≤ v ∧ v ≤ 2147483647)) &&
      decide ((vs.length : Int) ≤ 2147483647)
  | .TAG_Long_Array _ vs =>
      vs.all (fun v => decide (-9223372036854775808 ≤ v ∧ v ≤ 9223372036854775807)) &&
      decide ((vs.length : Int) ≤ 2147483647)

/-- Validity of list elements: each has the list's element type, no name,
and is itself valid. -/
def validElems (ty : Nat) : List NBTTag → Bool
  | [] => true
  | e :: es => decide (e.get_id = ty) && decide (e.name = none) && validTag e && validElems ty es

/-- Validity of compound children: thin unique names and valid subtrees. -/
def validChildren : List NBTTag → Bool
  | [] => true
  | t :: ts =>
      (match t.name with
       | some nm => nm.all (· < 128) && decide (nm.length < 65536)
       | none => false) &&
      ts.all (fun x => decide (x.name ≠ t.name)) && validTag t && validChildren ts

end

mutual

/-- Fuel sufficient for NBTTag.load to decode the encoding of a tag. -/
def tagFuel : NBTTag → Nat
  | .TAG_List _ _ es => 1 + elemsFuel es
  | .TAG_Compound _ ch => 1 + childrenFuel ch
  | _ => 1

/-- Fuel sufficient for TAG_List.load_elems on these elements. -/
def elemsFuel : List NBTTag → Nat
  | [] => 1
  | e :: es => 1 + tagFuel e + elemsFuel es

/-- Fuel sufficient for TAG_Compound.load_body on these children. -/
def childrenFuel : List NBTTag → Nat
  | [] => 1
  | t :: ts => 1 + tagFuel t + childrenFuel ts

end

/-- Names of a child list are pairwise distinct (each child's name differs
from every later child's name). -/
def namesDistinct : List NBTTag → Bool
  | [] => true
  | t :: ts => ts.all (fun x => decide (x.name ≠ t.name)) && namesDistinct ts

mutual

/-- Every compound anywhere in the tag tree has pairwise-distinct child
names. -/
def tagNodup : NBTTag → Bool
  | .TAG_Compound _ ch => namesDistinct ch && tagsNodup ch
  | .TAG_List _ _ es => tagsNodup es
  | _ => true

/-- tagNodup for each member of a list. -/
def tagsNodup : List NBTTag → Bool
  | [] => true
  | t :: ts => tagNodup t && tagsNodup ts

end

theorem length_natToBytesBE (w n : Nat) : (natToBytesBE w n).length = w := by
  induction w generalizing n with
  | zero => rfl
  | succ w ih => simp [natToBytesBE, ih]

theorem bytesToNatBE_foldl (bs : List Nat) (a : Nat) :
    bs.foldl (fun a b => a * 256 + b) a = a * 256 ^ bs.length + bytesToNatBE bs := by
  induction bs generalizing a with
  | nil => simp [bytesToNatBE]
  | cons b bs ih =>
      simp only [List.foldl_cons, bytesToNatBE, Nat.zero_mul, Nat.zero_add, List.length_cons]
      rw [ih (a * 256 + b), ih b]
      ring

theorem bytesToNatBE_cons (b : Nat) (bs : List Nat) :
    bytesToNatBE (b :: bs) = b * 256 ^ bs.length + bytesToNatBE bs := by
  simpa [bytesToNatBE] using bytesToNatBE_foldl bs b

theorem pow256_eq (w : Nat) : (256 : Nat) ^ w = 2 ^ (8 * w) := by
  rw [show (256 : Nat) = 2 ^ 8 from rfl, ← Nat.pow_mul]

theorem bytesToNatBE_natToBytesBE (w n : Nat) :
    bytesToNatBE (natToBytesBE w n) = n % 256 ^ w := by
  induction w generalizing n with
  | zero => simp [natToBytesBE, bytesToNatBE, Nat.mod_one]
  | succ w ih =>
      rw [natToBytesBE, bytesToNatBE_cons, length_natToBytesBE, ih]
      rw [pow_succ, Nat.mod_mul]
      ring

theorem natToBytesBE_lt (w n : Nat) : ∀ b ∈ natToBytesBE w n, b < 256 := by
  induction w generalizing n with
  | zero => simp [natToBytesBE]
  | succ w ih =>
      intro b hb
      rw [natToBytesBE] at hb
      rcases List.mem_cons.1 hb with h | h
      · subst h; exact Nat.mod_lt _ (by norm_num)
      · exact ih n b h

theorem natToBytesBE_head (w n : Nat) (hn : n < 256 ^ (w + 1)) :
    natToBytesBE (w + 1) n = n / 256 ^ w :: natToBytesBE w n := by
  rw [natToBytesBE, Nat.mod_eq_of_lt (Nat.div_lt_of_lt_mul (by rwa [← pow_succ] ))]

theorem take_append_length {α : Type} (bs rest : List α) :
    (bs ++ rest).take bs.length = bs := by
  simp

theorem drop_append_length {α : Type} (bs rest : List α) :
    (bs ++ rest).drop bs.length = rest := by
  simp

theorem readN_append (n : Nat) (bs rest : List Nat) (h : bs.length = n) :
    readN n (bs ++ rest) = (bs, rest) := by
  subst h
  simp [readN]


theorem readN_one_cons (b : Nat) (tail : List Nat) : readN 1 (b :: tail) = ([b], tail) := rfl

theorem intToBytesSigned_spec {v : Int} (w : Nat) (hw : 1 ≤ w)
    (h1 : -(2 ^ (8 * w - 1) : Int) ≤ v) (h2 : v < 2 ^ (8 * w - 1)) :
    ∃ bs, intToBytesSigned v w = .ok bs ∧ bs.length = w ∧
      (∀ b ∈ bs, b < 256) ∧ bytesToIntSigned bs = v := by
  obtain ⟨w', rfl⟩ : ∃ w', w = w' + 1 := ⟨w - 1, by omega⟩
  refine ⟨natToBytesBE (w' + 1) (v.emod (2 ^ (8 * (w' + 1)))).toNat, ?_, ?_, ?_, ?_⟩
  · rw [intToBytesSigned, if_pos ⟨h1, h2⟩]
  · exact length_natToBytesBE _ _
  · exact natToBytesBE_lt _ _
  · set A : Int := 2 ^ (8 * w' + 7) with hAdef
    have hA : (0 : Int) < A := by positivity
    have hexp : 8 * (w' + 1) - 1 = 8 * w' + 7 := by omega
    rw [hexp] at h1 h2
    have hNA : (2 : Int) ^ (8 * (w' + 1)) = 2 * A := by
      rw [hAdef, show 8 * (w' + 1) = (8 * w' + 7) + 1 by omega, pow_succ]
      ring
    have hmnn : (0 : Int) ≤ v.emod (2 ^ (8 * (w' + 1))) :=
      Int.emod_nonneg v (by positivity)
    set m : Nat := (v.emod (2 ^ (8 * (w' + 1)))).toNat with hm
    have hmev : (m : Int) = v.emod (2 ^ (8 * (w' + 1))) := Int.toNat_of_nonneg hmnn
    have hkey : (m : Int) = v ∨ (m : Int) = v + 2 * A := by
      rcases le_or_lt 0 v with hv | hv
      · left
        rw [hmev]
        exact Int.emod_eq_of_lt hv (by rw [hNA]; omega)
      · right
        rw [hmev]
        have e1 : (v + 2 ^ (8 * (w' + 1))).emod (2 ^ (8 * (w' + 1)))
            = v.emod (2 ^ (8 * (w' + 1))) := by
          have h := Int.add_mul_emod_self_left (a := v)
            (b := (2 : Int) ^ (8 * (w' + 1))) (c := 1)
          rwa [mul_one] at h
        rw [← e1]
        have e2 : (v + 2 ^ (8 * (w' + 1))).emod (2 ^ (8 * (w' + 1)))
            = v + 2 ^ (8 * (w' + 1)) :=
          Int.emod_eq_of_lt (by rw [hNA]; omega) (by rw [hNA]; omega)
        rw [e2, hNA]
    have hmlt : (m : Int) < 2 * A := by
      rw [hmev, ← hNA]
      exact Int.emod_lt_of_pos v (by rw [hNA]; positivity)
    have hc256 : (((256 : Nat) ^ (w' + 1) : Nat) : Int) = 2 * A := by
      push_cast
      rw [show ((256 : Int)) = 2 ^ 8 by norm_num, ← pow_mul, ← hNA]
    have hc128 : ((128 * 256 ^ w' : Nat) : Int) = A := by
      push_cast
      rw [show ((256 : Int)) = 2 ^ 8 by norm_num, ← pow_mul,
          show ((128 : Int)) = 2 ^ 7 by norm_num, ← pow_add, hAdef]
      congr 1
      omega
    have hm256 : m < 256 ^ (w' + 1) := by
      have : (m : Int) < ((256 ^ (w' + 1) : Nat) : Int) := by rw [hc256]; exact hmlt
      exact_mod_cast this
    have hP : 0 < 256 ^ w' := Nat.pos_pow_of_pos _ (by norm_num)
    have hbytes := natToBytesBE_head w' m hm256
    rw [hbytes]
    have hvalnat : bytesToNatBE (m / 256 ^ w' :: natToBytesBE w' m) = m := by
      rw [bytesToNatBE_cons, length_natToBytesBE, bytesToNatBE_natToBytesBE]
      rw [Nat.mul_comm (m / 256 ^ w') (256 ^ w')]
      exact Nat.div_add_mod m (256 ^ w')
    have hlen : (m / 256 ^ w' :: natToBytesBE w' m).length = w' + 1 := by
      simp [length_natToBytesBE]
    rcases hkey with hk | hk
    · have hmA : m < 128 * 256 ^ w' := by
        have : (m : Int) < ((128 * 256 ^ w' : Nat) : Int) := by
          rw [hc128, hk]; exact h2
        exact_mod_cast this
      have hhead : ¬ (128 ≤ m / 256 ^ w') := by
        rw [not_le, Nat.div_lt_iff_lt_mul hP]
        omega
      rw [bytesToIntSigned, if_neg hhead, hvalnat, hk]
    · have hmA : 128 * 256 ^ w' ≤ m := by
        have : ((128 * 256 ^ w' : Nat) : Int) ≤ (m : Int) := by
          rw [hc128, hk]; omega
        exact_mod_cast this
      have hhead : 128 ≤ m / 256 ^ w' := by
        rw [Nat.le_div_iff_mul_le hP]
        omega
      rw [bytesToIntSigned, if_pos hhead, hvalnat, hlen, hNA, hk]
      ring

theorem utf8Encode_nil : utf8Encode [] = [] := rfl

theorem utf8Encode_cons (c : Nat) (s : List Nat) :
    utf8Encode (c :: s) = utf8EncodeChar c ++ utf8Encode s := by
  simp [utf8Encode]

theorem utf8EncodeChar_thin {c : Nat} (h : c < 128) : utf8EncodeChar c = [c] := by
  simp [utf8EncodeChar, h]

theorem utf8Encode_thin {s : List Nat} (h : ∀ c ∈ s, c < 128) : utf8Encode s = s := by
  induction s with
  | nil => rfl
  | cons c s ih =>
      rw [utf8Encode_cons, utf8EncodeChar_thin (h c (List.mem_cons_self c s)),
          ih (fun x hx => h x (List.mem_cons_of_mem _ hx))]
      rfl

theorem utf8Decode_thin {s : List Nat} (h : ∀ c ∈ s, c < 128) : utf8Decode s = some s := by
  induction s with
  | nil => rfl
  | cons c s ih =>
      have hc : c < 128 := h c (List.mem_cons_self c s)
      rw [utf8Decode, if_pos hc, ih (fun x hx => h x (List.mem_cons_of_mem _ hx))]
      rfl

theorem utf8Decode_encodeChar {c : Nat} (h : validCp c = true) (rest : List Nat) :
    utf8Decode (utf8EncodeChar c ++ rest) = (utf8Decode rest).map (c :: ·) := by
  have hcv : c < 1114112 ∧ (c < 55296 ∨ 57343 < c) := by
    simp only [validCp, Bool.and_eq_true, Bool.not_eq_true', Bool.and_eq_false_iff,
      decide_eq_true_eq, decide_eq_false_iff_not] at h
    omega
  by_cases h1 : c < 0x80
  · rw [utf8EncodeChar, if_pos h1]
    simp only [List.cons_append, List.nil_append]
    rw [utf8Decode, if_pos h1]
  · by_cases h2 : c < 0x800
    · rw [utf8EncodeChar, if_neg h1, if_pos h2]
      simp only [List.cons_append, List.nil_append]
      rw [utf8Decode]
      rw [if_neg (by omega), if_neg (by omega), if_pos (by omega)]
      rw [utf8Decode2]
      rw [if_pos (show isCont (0x80 + c % 64) = true by
            simp only [isCont, Bool.and_eq_true, decide_eq_true_eq]; omega)]
      have hval : (0xC0 + c / 64 - 0xC0) * 64 + (0x80 + c % 64 - 0x80) = c := by omega
      rw [hval]
    · by_cases h3 : c < 0x10000
      · rw [utf8EncodeChar, if_neg h1, if_neg h2, if_pos h3]
        simp only [List.cons_append, List.nil_append]
        rw [utf8Decode]
        rw [if_neg (by omega), if_neg (by omega), if_neg (by omega), if_pos (by omega)]
        rw [utf8Decode3]
        have hval : (0xE0 + c / 4096 - 0xE0) * 4096 + (0x80 + c / 64 % 64 - 0x80) * 64
            + (0x80 + c % 64 - 0x80) = c := by omega
        by_cases hd : c / 4096 = 0
        · rw [if_pos (show (0xE0 + c / 4096 : Nat) = 0xE0 by omega)]
          split
          · rw [hval]
          · next hf =>
              exfalso
              apply hf
              simp only [isCont, Bool.and_eq_true, decide_eq_true_eq]
              omega
        · rw [if_neg (show ¬((0xE0 + c / 4096 : Nat) = 0xE0) by omega)]
          by_cases he : c / 4096 = 13
          · rw [if_pos (show (0xE0 + c / 4096 : Nat) = 0xED by omega)]
            split
            · rw [hval]
            · next hf =>
                exfalso
                apply hf
                simp only [isCont, Bool.and_eq_true, decide_eq_true_eq]
                omega
          · rw [if_neg (show ¬((0xE0 + c / 4096 : Nat) = 0xED) by omega)]
            split
            · rw [hval]
            · next hf =>
                exfalso
                apply hf
                simp only [isCont, Bool.and_eq_true, decide_eq_true_eq]
                omega
      · rw [utf8EncodeChar, if_neg h1, if_neg h2, if_neg h3]
        simp only [List.cons_append, List.nil_append]
        rw [utf8Decode]
        rw [if_neg (by omega), if_neg (by omega), if_neg (by omega), if_neg (by omega),
            if_pos (by omega)]
        rw [utf8Decode4]
        have hval : (0xF0 + c / 262144 - 0xF0) * 262144 + (0x80 + c / 4096 % 64 - 0x80) * 4096
            + (0x80 + c / 64 % 64 - 0x80) * 64 + (0x80 + c % 64 - 0x80) = c := by omega
        by_cases hd : c / 262144 = 0
        · rw [if_pos (show (0xF0 + c / 262144 : Nat) = 0xF0 by omega)]
          split
          · rw [hval]
          · next hf =>
              exfalso
              apply hf
              simp only [isCont, Bool.and_eq_true, decide_eq_true_eq]
              omega
        · rw [if_neg (show ¬((0xF0 + c / 262144 : Nat) = 0xF0) by omega)]
          by_cases he : c / 262144 = 4
          · rw [if_pos (show (0xF0 + c / 262144 : Nat) = 0xF4 by omega)]
            split
            · rw [hval]
            · next hf =>
                exfalso
                apply hf
                simp only [isCont, Bool.and_eq_true, decide_eq_true_eq]
                omega
          · rw [if_neg (show ¬((0xF0 + c / 262144 : Nat) = 0xF4) by omega)]
            split
            · rw [hval]
            · next hf =>
                exfalso
                apply hf
                simp only [isCont, Bool.and_eq_true, decide_eq_true_eq]
                omega

theorem utf8Decode_utf8Encode {s : List Nat} (h : s.all validCp = true) :
    utf8Decode (utf8Encode s) = some s := by
  induction s with
  | nil => rfl
  | cons c s ih =>
      rw [List.all_cons, Bool.and_eq_true] at h
      rw [utf8Encode_cons, utf8Decode_encodeChar h.1, ih h.2]
      rfl

theorem except_bind_ok {α β : Type} (a : α) (f : α → Except PyErr β) :
    (Except.ok a >>= f) = f a := rfl

theorem except_bind_err {α β : Type} (e : PyErr) (f : α → Except PyErr β) :
    ((Except.error e : Except PyErr α) >>= f) = Except.error e := rfl

theorem bytesToNatBE_one (b : Nat) : bytesToNatBE [b] = b := by
  simp [bytesToNatBE]

theorem get_id_bounds (t : NBTTag) : 1 ≤ t.get_id ∧ t.get_id ≤ 12 := by
  cases t <;> simp [NBTTag.get_id]

theorem validateIntRange_ok {v : Int} {w : Nat}
    (h1 : -(2 ^ (8 * w - 1) : Int) ≤ v) (h2 : v < 2 ^ (8 * w - 1)) :
    validateIntRange v w = .ok () := by
  rw [validateIntRange, if_pos ⟨h1, h2⟩]

theorem findIdx?_none_of (p : NBTTag → Bool) (l : List NBTTag)
    (h : ∀ x ∈ l, p x = false) : ∀ i, List.findIdx? p l i = none := by
  induction l with
  | nil => intro i; rfl
  | cons a as ih =>
      intro i
      rw [List.findIdx?_cons, h a (List.mem_cons_self a as)]
      simp only [Bool.false_eq_true, if_false]
      exact ih (fun x hx => h x (List.mem_cons_of_mem _ hx)) (i + 1)

theorem add_false_of_fresh (acc : List NBTTag) (tag : NBTTag)
    (h : ∀ x ∈ acc, x.name ≠ tag.name) :
    TAG_Compound.add 0 acc tag false = .ok (acc ++ [tag]) := by
  rw [TAG_Compound.add]
  rw [findIdx?_none_of (fun x => decide (x.name = tag.name)) acc
    (fun x hx => decide_eq_false (h x hx)) 0]

theorem load_eq_1 (f : Nat) (nm : Option (List Nat)) (s : List Nat) :
    NBTTag.load (f + 1) 1 nm s =
      (let (bs, s1) := readN 1 s; .ok (.TAG_Byte nm (bytesToIntSigned bs), s1)) := rfl

theorem load_eq_2 (f : Nat) (nm : Option (List Nat)) (s : List Nat) :
    NBTTag.load (f + 1) 2 nm s =
      (let (bs, s1) := readN 2 s; .ok (.TAG_Short nm (bytesToIntSigned bs), s1)) := rfl

theorem load_eq_3 (f : Nat) (nm : Option (List Nat)) (s : List Nat) :
    NBTTag.load (f + 1) 3 nm s =
      (let (bs, s1) := readN 4 s; .ok (.TAG_Int nm (bytesToIntSigned bs), s1)) := rfl

theorem load_eq_4 (f : Nat) (nm : Option (List Nat)) (s : List Nat) :
    NBTTag.load (f + 1) 4 nm s =
      (let (bs, s1) := readN 8 s; .ok (.TAG_Long nm (bytesToIntSigned bs), s1)) := rfl

theorem load_eq_5 (f : Nat) (nm : Option (List Nat)) (s : List Nat) :
    NBTTag.load (f + 1) 5 nm s =
      (let (bs, s1) := readN 4 s
       if bs.length = 4 then .ok (.TAG_Float nm bs, s1) else .error .structErr) := rfl

theorem load_eq_6 (f : Nat) (nm : Option (List Nat)) (s : List Nat) :
    NBTTag.load (f + 1) 6 nm s =
      (let (bs, s1) := readN 8 s
       if bs.length = 8 then .ok (.TAG_Double nm bs, s1) else .error .structErr) := rfl

theorem load_eq_7 (f : Nat) (nm : Option (List Nat)) (s : List Nat) :
    NBTTag.load (f + 1) 7 nm s =
      (let (lb, s1) := readN 4 s
       let (vs, s2) := NBTTag_Array.load_elems 1 (bytesToIntSigned lb).toNat s1
       .ok (.TAG_Byte_Array nm vs, s2)) := rfl

theorem load_eq_8 (f : Nat) (nm : Option (List Nat)) (s : List Nat) :
    NBTTag.load (f + 1) 8 nm s =
      (let (lb, s1) := readN 2 s
       let len := bytesToIntSigned lb
       let (bs, s2) := if len < 0 then (s1, ([] : List Nat)) else readN len.toNat s1
       match utf8Decode bs with
       | some v => .ok (.TAG_String nm v, s2)
       | none => .error .badUTF8) := rfl

theorem load_eq_9 (f : Nat) (nm : Option (List Nat)) (s : List Nat) :
    NBTTag.load (f + 1) 9 nm s =
      (do
        let (tyb, s1) := readN 1 s
        let tyv := bytesToIntSigned tyb
        let ty : Nat := if 1 ≤ tyv ∧ tyv ≤ 12 then tyv.toNat else 0
        let (lb, s2) := readN 4 s1
        let len := (bytesToIntSigned lb).toNat
        if ty = 0 ∧ 0 < len then .error .attrErr
        else do
          let (es, s3) ← TAG_List.load_elems f ty len s2
          .ok (.TAG_List nm ty es, s3)) := rfl

theorem load_eq_10 (f : Nat) (nm : Option (List Nat)) (s : List Nat) :
    NBTTag.load (f + 1) 10 nm s =
      (do
        let (ch, s1) ← TAG_Compound.load_body f [] s
        .ok (.TAG_Compound nm ch, s1)) := rfl

theorem load_eq_11 (f : Nat) (nm : Option (List Nat)) (s : List Nat) :
    NBTTag.load (f + 1) 11 nm s =
      (let (lb, s1) := readN 4 s
       let (vs, s2) := NBTTag_Array.load_elems 4 (bytesToIntSigned lb).toNat s1
       .ok (.TAG_Int_Array nm vs, s2)) := rfl

theorem load_eq_12 (f : Nat) (nm : Option (List Nat)) (s : List Nat) :
    NBTTag.load (f + 1) 12 nm s =
      (let (lb, s1) := readN 4 s
       let (vs, s2) := NBTTag_Array.load_elems 8 (bytesToIntSigned lb).toNat s1
       .ok (.TAG_Long_Array nm vs, s2)) := rfl

theorem load_elems_zero (f ty : Nat) (s : List Nat) :
    TAG_List.load_elems (f + 1) ty 0 s = .ok ([], s) := rfl

theorem load_elems_succ (f ty n : Nat) (s : List Nat) :
    TAG_List.load_elems (f + 1) ty (n + 1) s =
      (do
        let (t, s1) ← NBTTag.load f ty none s
        let (ts, s2) ← TAG_List.load_elems f ty n s1
        .ok (t :: ts, s2)) := rfl

theorem load_body_stop (f : Nat) (acc : List NBTTag) (rest : List Nat) :
    TAG_Compound.load_body (f + 1) acc (0 :: rest) = .ok (acc, rest) := rfl

theorem array_body_spec (w : Nat) (hw : 1 ≤ w) :
    ∀ vs : List Int, (∀ v ∈ vs, -(2 ^ (8 * w - 1) : Int) ≤ v ∧ v < 2 ^ (8 * w - 1)) →
      ∃ body, NBTTag_Array.payload_body w vs = .ok body ∧
        ∀ rest, NBTTag_Array.load_elems w vs.length (body ++ rest) = (vs, rest) := by
  intro vs
  induction vs with
  | nil =>
      intro _
      exact ⟨[], rfl, fun rest => rfl⟩
  | cons v vs ih =>
      intro h
      obtain ⟨hr1, hr2⟩ := h v (List.mem_cons_self v vs)
      obtain ⟨b, hok, hblen, _, hbdec⟩ := intToBytesSigned_spec w hw hr1 hr2
      obtain ⟨body, hbody, hload⟩ := ih (fun x hx => h x (List.mem_cons_of_mem _ hx))
      refine ⟨b ++ body, ?_, ?_⟩
      · rw [NBTTag_Array.payload_body, validateIntRange_ok hr1 hr2, except_bind_ok,
          hok, except_bind_ok, hbody, except_bind_ok]
      · intro rest
        rw [List.length_cons, NBTTag_Array.load_elems]
        simp only [List.append_assoc, readN_append w b (body ++ rest) hblen]
        rw [hload rest, hbdec]

example : tagFuel (.TAG_Byte none 0) = 1 := rfl

example : validTag (.TAG_Byte none 5) = true := rfl

example : validTag (.TAG_Compound (some []) [.TAG_Byte (some [97]) 5]) = true := rfl

example : tagFuel (.TAG_Compound none [.TAG_Byte none 0]) = 4 := rfl

example : NBTTag.payload (.TAG_Byte none 5) = .ok [5] := rfl

example : tagNodup (.TAG_Compound none []) = true := rfl

example : pyEq 5 (.TAG_Byte none 1) (.TAG_Byte none 1) = .error .nameErr := rfl

/-- Round-trip property of a single tag: its payload encodes successfully
and NBTTag.load parses it back exactly, leaving the rest of the stream. -/
def RT (t : NBTTag) : Prop :=
  ∃ bs, NBTTag.payload t = .ok bs ∧
    ∀ fuel rest, tagFuel t ≤ fuel →
      NBTTag.load fuel t.get_id t.name (bs ++ rest) = .ok (t, rest)

/-- Round-trip property of a list body. -/
def RTL (ty : Nat) (es : List NBTTag) : Prop :=
  ∃ bs, TAG_List.payload_body es = .ok bs ∧
    ∀ fuel rest, elemsFuel es ≤ fuel →
      TAG_List.load_elems fuel ty es.length (bs ++ rest) = .ok (es, rest)

/-- Round-trip property of a compound body. -/
def RTC (ch : List NBTTag) : Prop :=
  ∃ bs, TAG_Compound.payload ch = .ok bs ∧
    ∀ fuel rest acc, childrenFuel ch ≤ fuel →
      (∀ x ∈ acc, ∀ c ∈ ch, x.name ≠ c.name) →
      TAG_Compound.load_body fuel acc (bs ++ rest) = .ok (acc ++ ch, rest)

theorem roundtrip_master : ∀ n : Nat,
    (∀ t, tagFuel t ≤ n → validTag t = true → RT t) ∧
    (∀ ty es, elemsFuel es ≤ n → validElems ty es = true → RTL ty es) ∧
    (∀ ch, childrenFuel ch ≤ n → validChildren ch = true → RTC ch) := by
  intro n
  induction n using Nat.strong_induction_on with
  | _ n ih =>
    refine ⟨?_, ?_, ?_⟩
    · intro t hle hv
      cases t with
      | TAG_Byte nm v =>
          simp only [validTag, decide_eq_true_eq] at hv
          have hb1 : -(2 ^ (8 * 1 - 1) : Int) ≤ v := by norm_num; omega
          have hb2 : v < 2 ^ (8 * 1 - 1) := by norm_num; omega
          obtain ⟨bs, hok, hlen, _, hdec⟩ := intToBytesSigned_spec 1 (by norm_num) hb1 hb2
          refine ⟨bs, ?_, ?_⟩
          · simp only [NBTTag.payload]
            exact hok
          · intro fuel rest hf
            have hf1 : 1 ≤ fuel :=
              le_trans (by rw [show tagFuel (.TAG_Byte nm v) = 1 from rfl]) hf
            obtain ⟨f, rfl⟩ : ∃ f, fuel = f + 1 := ⟨fuel - 1, by omega⟩
            simp only [NBTTag.get_id, NBTTag.name]
            rw [load_eq_1]
            simp only [readN_append 1 bs rest hlen, hdec]
      | TAG_Short nm v =>
          simp only [validTag, decide_eq_true_eq] at hv
          have hb1 : -(2 ^ (8 * 2 - 1) : Int) ≤ v := by norm_num; omega
          have hb2 : v < 2 ^ (8 * 2 - 1) := by norm_num; omega
          obtain ⟨bs, hok, hlen, _, hdec⟩ := intToBytesSigned_spec 2 (by norm_num) hb1 hb2
          refine ⟨bs, ?_, ?_⟩
          · simp only [NBTTag.payload]
            exact hok
          · intro fuel rest hf
            have hf1 : 1 ≤ fuel :=
              le_trans (by rw [show tagFuel (.TAG_Short nm v) = 1 from rfl]) hf
            obtain ⟨f, rfl⟩ : ∃ f, fuel = f + 1 := ⟨fuel - 1, by omega⟩
            simp only [NBTTag.get_id, NBTTag.name]
            rw [load_eq_2]
            simp only [readN_append 2 bs rest hlen, hdec]
      | TAG_Int nm v =>
          simp only [validTag, decide_eq_true_eq] at hv
          have hb1 : -(2 ^ (8 * 4 - 1) : Int) ≤ v := by norm_num; omega
          have hb2 : v < 2 ^ (8 * 4 - 1) := by norm_num; omega
          obtain ⟨bs, hok, hlen, _, hdec⟩ := intToBytesSigned_spec 4 (by norm_num) hb1 hb2
          refine ⟨bs, ?_, ?_⟩
          · simp only [NBTTag.payload]
            exact hok
          · intro fuel rest hf
            have hf1 : 1 ≤ fuel :=
              le_trans (by rw [show tagFuel (.TAG_Int nm v) = 1 from rfl]) hf
            obtain ⟨f, rfl⟩ : ∃ f, fuel = f + 1 := ⟨fuel - 1, by omega⟩
            simp only [NBTTag.get_id, NBTTag.name]
            rw [load_eq_3]
            simp only [readN_append 4 bs rest hlen, hdec]
      | TAG_Long nm v =>
          simp only [validTag, decide_eq_true_eq] at hv
          have hb1 : -(2 ^ (8 * 8 - 1) : Int) ≤ v := by norm_num; omega
          have hb2 : v < 2 ^ (8 * 8 - 1) := by norm_num; omega
          obtain ⟨bs, hok, hlen, _, hdec⟩ := intToBytesSigned_spec 8 (by norm_num) hb1 hb2
          refine ⟨bs, ?_, ?_⟩
          · simp only [NBTTag.payload]
            exact hok
          · intro fuel rest hf
            have hf1 : 1 ≤ fuel :=
              le_trans (by rw [show tagFuel (.TAG_Long nm v) = 1 from rfl]) hf
            obtain ⟨f, rfl⟩ : ∃ f, fuel = f + 1 := ⟨fuel - 1, by omega⟩
            simp only [NBTTag.get_id, NBTTag.name]
            rw [load_eq_4]
            simp only [readN_append 8 bs rest hlen, hdec]
      | TAG_Float nm bits =>
          simp only [validTag, decide_eq_true_eq] at hv
          refine ⟨bits, by simp only [NBTTag.payload], ?_⟩
          intro fuel rest hf
          have hf1 : 1 ≤ fuel :=
            le_trans (by rw [show tagFuel (.TAG_Float nm bits) = 1 from rfl]) hf
          obtain ⟨f, rfl⟩ : ∃ f, fuel = f + 1 := ⟨fuel - 1, by omega⟩
          simp only [NBTTag.get_id, NBTTag.name]
          rw [load_eq_5]
          simp only [readN_append 4 bits rest hv]
          rw [if_pos hv]
      | TAG_Double nm bits =>
          simp only [validTag, decide_eq_true_eq] at hv
          refine ⟨bits, by simp only [NBTTag.payload], ?_⟩
          intro fuel rest hf
          have hf1 : 1 ≤ fuel :=
            le_trans (by rw [show tagFuel (.TAG_Double nm bits) = 1 from rfl]) hf
          obtain ⟨f, rfl⟩ : ∃ f, fuel = f + 1 := ⟨fuel - 1, by omega⟩
          simp only [NBTTag.get_id, NBTTag.name]
          rw [load_eq_6]
          simp only [readN_append 8 bits rest hv]
          rw [if_pos hv]
      | TAG_Byte_Array nm vs =>
          simp only [validTag, Bool.and_eq_true, List.all_eq_true, decide_eq_true_eq] at hv
          obtain ⟨hr, hslen⟩ := hv
          have hr' : ∀ v ∈ vs, -(2 ^ (8 * 1 - 1) : Int) ≤ v ∧ v < 2 ^ (8 * 1 - 1) := by
            intro v hvmem
            have := hr v hvmem
            norm_num
            omega
          obtain ⟨body, hbody, hload⟩ := array_body_spec 1 (by norm_num) vs hr'
          have hL1 : -(2 ^ (8 * 4 - 1) : Int) ≤ (vs.length : Int) := by norm_num; omega
          have hL2 : (vs.length : Int) < 2 ^ (8 * 4 - 1) := by norm_num; omega
          obtain ⟨lenb, hlok, hllen, _, hldec⟩ := intToBytesSigned_spec 4 (by norm_num) hL1 hL2
          refine ⟨lenb ++ body, ?_, ?_⟩
          · simp only [NBTTag.payload, NBTTag_Array.payload, validateIntRange_ok hL1 hL2,
              except_bind_ok, hlok, hbody]
          · intro fuel rest hf
            have hf1 : 1 ≤ fuel :=
              le_trans (by rw [show tagFuel (.TAG_Byte_Array nm vs) = 1 from rfl]) hf
            obtain ⟨f, rfl⟩ : ∃ f, fuel = f + 1 := ⟨fuel - 1, by omega⟩
            simp only [NBTTag.get_id, NBTTag.name]
            rw [load_eq_7]
            simp only [List.append_assoc, readN_append 4 lenb (body ++ rest) hllen, hldec,
              Int.toNat_natCast, hload rest]
      | TAG_Int_Array nm vs =>
          simp only [validTag, Bool.and_eq_true, List.all_eq_true, decide_eq_true_eq] at hv
          obtain ⟨hr, hslen⟩ := hv
          have hr' : ∀ v ∈ vs, -(2 ^ (8 * 4 - 1) : Int) ≤ v ∧ v < 2 ^ (8 * 4 - 1) := by
            intro v hvmem
            have := hr v hvmem
            norm_num
            omega
          obtain ⟨body, hbody, hload⟩ := array_body_spec 4 (by norm_num) vs hr'
          have hL1 : -(2 ^ (8 * 4 - 1) : Int) ≤ (vs.length : Int) := by norm_num; omega
          have hL2 : (vs.length : Int) < 2 ^ (8 * 4 - 1) := by norm_num; omega
          obtain ⟨lenb, hlok, hllen, _, hldec⟩ := intToBytesSigned_spec 4 (by norm_num) hL1 hL2
          refine ⟨lenb ++ body, ?_, ?_⟩
          · simp only [NBTTag.payload, NBTTag_Array.payload, validateIntRange_ok hL1 hL2,
              except_bind_ok, hlok, hbody]
          · intro fuel rest hf
            have hf1 : 1 ≤ fuel :=
              le_trans (by rw [show tagFuel (.TAG_Int_Array nm vs) = 1 from rfl]) hf
            obtain ⟨f, rfl⟩ : ∃ f, fuel = f + 1 := ⟨fuel - 1, by omega⟩
            simp only [NBTTag.get_id, NBTTag.name]
            rw [load_eq_11]
            simp only [List.append_assoc, readN_append 4 lenb (body ++ rest) hllen, hldec,
              Int.toNat_natCast, hload rest]
      | TAG_Long_Array nm vs =>
          simp only [validTag, Bool.and_eq_true, List.all_eq_true, decide_eq_true_eq] at hv
          obtain ⟨hr, hslen⟩ := hv
          have hr' : ∀ v ∈ vs, -(2 ^ (8 * 8 - 1) : Int) ≤ v ∧ v < 2 ^ (8 * 8 - 1) := by
            intro v hvmem
            have := hr v hvmem
            norm_num
            omega
          obtain ⟨body, hbody, hload⟩ := array_body_spec 8 (by norm_num) vs hr'
          have hL1 : -(2 ^ (8 * 4 - 1) : Int) ≤ (vs.length : Int) := by norm_num; omega
          have hL2 : (vs.length : Int) < 2 ^ (8 * 4 - 1) := by norm_num; omega
          obtain ⟨lenb, hlok, hllen, _, hldec⟩ := intToBytesSigned_spec 4 (by norm_num) hL1 hL2
          refine ⟨lenb ++ body, ?_, ?_⟩
          · simp only [NBTTag.payload, NBTTag_Array.payload, validateIntRange_ok hL1 hL2,
              except_bind_ok, hlok, hbody]
          · intro fuel rest hf
            have hf1 : 1 ≤ fuel :=
              le_trans (by rw [show tagFuel (.TAG_Long_Array nm vs) = 1 from rfl]) hf
            obtain ⟨f, rfl⟩ : ∃ f, fuel = f + 1 := ⟨fuel - 1, by omega⟩
            simp only [NBTTag.get_id, NBTTag.name]
            rw [load_eq_12]
            simp only [List.append_assoc, readN_append 4 lenb (body ++ rest) hllen, hldec,
              Int.toNat_natCast, hload rest]
      | TAG_String nm s =>
          simp only [validTag, Bool.and_eq_true, decide_eq_true_eq] at hv
          obtain ⟨hcp, hsl⟩ := hv
          have henc : pyEncodeUTF8 s = .ok (utf8Encode s) := by
            rw [pyEncodeUTF8, if_pos hcp]
          have hL1 : -(2 ^ (8 * 2 - 1) : Int) ≤ ((utf8Encode s).length : Int) := by
            norm_num; omega
          have hL2 : ((utf8Encode s).length : Int) < 2 ^ (8 * 2 - 1) := by norm_num; omega
          obtain ⟨pfx, hpok, hplen, _, hpdec⟩ := intToBytesSigned_spec 2 (by norm_num) hL1 hL2
          refine ⟨pfx ++ utf8Encode s, ?_, ?_⟩
          · simp only [NBTTag.payload, henc, except_bind_ok]
            rw [if_pos ⟨by omega, by exact_mod_cast hsl⟩]
            simp only [hpok, except_bind_ok]
          · intro fuel rest hf
            have hf1 : 1 ≤ fuel :=
              le_trans (by rw [show tagFuel (.TAG_String nm s) = 1 from rfl]) hf
            obtain ⟨f, rfl⟩ : ∃ f, fuel = f + 1 := ⟨fuel - 1, by omega⟩
            simp only [NBTTag.get_id, NBTTag.name]
            rw [load_eq_8]
            simp only [List.append_assoc, readN_append 2 pfx (utf8Encode s ++ rest) hplen,
              hpdec]
            rw [if_neg (by omega)]
            simp only [Int.toNat_natCast,
              readN_append (utf8Encode s).length (utf8Encode s) rest rfl,
              utf8Decode_utf8Encode hcp]
      | TAG_List nm ty es =>
          simp only [validTag, Bool.and_eq_true, Bool.or_eq_true, decide_eq_true_eq,
            List.isEmpty_iff] at hv
          obtain ⟨⟨⟨hty, hempty⟩, hlenb⟩, hve⟩ := hv
          have hlt : elemsFuel es < n := by
            have he : tagFuel (.TAG_List nm ty es) = 1 + elemsFuel es := rfl
            omega
          obtain ⟨body, hbody, hloadL⟩ := (ih (elemsFuel es) hlt).2.1 ty es (le_refl _) hve
          have ht1 : -(2 ^ (8 * 1 - 1) : Int) ≤ (ty : Int) := by norm_num; omega
          have ht2 : (ty : Int) < 2 ^ (8 * 1 - 1) := by norm_num; omega
          obtain ⟨tyb, htok, htlen, _, htdec⟩ := intToBytesSigned_spec 1 (by norm_num) ht1 ht2
          have hL1 : -(2 ^ (8 * 4 - 1) : Int) ≤ (es.length : Int) := by norm_num; omega
          have hL2 : (es.length : Int) < 2 ^ (8 * 4 - 1) := by norm_num; omega
          obtain ⟨lenb, hlok, hllen, _, hldec⟩ := intToBytesSigned_spec 4 (by norm_num) hL1 hL2
          refine ⟨tyb ++ (lenb ++ body), ?_, ?_⟩
          · simp only [NBTTag.payload, htok, except_bind_ok, validateIntRange_ok hL1 hL2,
              hlok, hbody]
            rw [List.append_assoc]
          · intro fuel rest hf
            have hf1 : 1 + elemsFuel es ≤ fuel :=
              le_trans (by rw [show tagFuel (.TAG_List nm ty es) = 1 + elemsFuel es from rfl]) hf
            obtain ⟨f, rfl⟩ : ∃ f, fuel = f + 1 := ⟨fuel - 1, by omega⟩
            simp only [NBTTag.get_id, NBTTag.name]
            rw [load_eq_9]
            simp only [List.append_assoc, readN_append 1 tyb (lenb ++ (body ++ rest)) htlen,
              htdec, readN_append 4 lenb (body ++ rest) hllen, hldec, Int.toNat_natCast]
            have hty' : (if 1 ≤ (ty : Int) ∧ (ty : Int) ≤ 12 then ty else 0) = ty := by
              split
              · rfl
              · omega
            rw [hty']
            rw [if_neg (by
              rintro ⟨h0, hpos⟩
              rcases hempty with he | he
              · rw [he] at hpos
                simp at hpos
              · omega)]
            rw [hloadL f rest (by omega), except_bind_ok]
      | TAG_Compound nm ch =>
          simp only [validTag] at hv
          have hlt : childrenFuel ch < n := by
            have he : tagFuel (.TAG_Compound nm ch) = 1 + childrenFuel ch := rfl
            omega
          obtain ⟨body, hbody, hloadC⟩ := (ih (childrenFuel ch) hlt).2.2 ch (le_refl _) hv
          refine ⟨body, ?_, ?_⟩
          · simpa only [NBTTag.payload] using hbody
          · intro fuel rest hf
            have hf1 : 1 + childrenFuel ch ≤ fuel :=
              le_trans
                (by rw [show tagFuel (.TAG_Compound nm ch) = 1 + childrenFuel ch from rfl]) hf
            obtain ⟨f, rfl⟩ : ∃ f, fuel = f + 1 := ⟨fuel - 1, by omega⟩
            simp only [NBTTag.get_id, NBTTag.name]
            rw [load_eq_10]
            rw [hloadC f rest [] (by omega) (fun x hx => absurd hx (List.not_mem_nil x)),
              except_bind_ok]
            rfl
    · intro ty es hle hv
      cases es with
      | nil =>
          refine ⟨[], rfl, ?_⟩
          intro fuel rest hf
          have hf1 : 1 ≤ fuel := le_trans (by rw [show elemsFuel [] = 1 from rfl]) hf
          obtain ⟨f, rfl⟩ : ∃ f, fuel = f + 1 := ⟨fuel - 1, by omega⟩
          simp only [List.length_nil, List.nil_append]
          exact load_elems_zero f ty rest
      | cons e es =>
          simp only [validElems, Bool.and_eq_true, decide_eq_true_eq] at hv
          obtain ⟨⟨⟨hid, hnme⟩, hvt⟩, hves⟩ := hv
          have hlt1 : tagFuel e < n := by
            have he : elemsFuel (e :: es) = 1 + tagFuel e + elemsFuel es := rfl
            omega
          have hlt2 : elemsFuel es < n := by
            have he : elemsFuel (e :: es) = 1 + tagFuel e + elemsFuel es := rfl
            omega
          obtain ⟨pl, hpl, hloadE⟩ := (ih (tagFuel e) hlt1).1 e (le_refl _) hvt
          obtain ⟨bsr, hbsr, hloadR⟩ := (ih (elemsFuel es) hlt2).2.1 ty es (le_refl _) hves
          refine ⟨pl ++ bsr, ?_, ?_⟩
          · simp only [TAG_List.payload_body, hpl, except_bind_ok, hbsr]
          · intro fuel rest hf
            have hf1 : 1 + tagFuel e + elemsFuel es ≤ fuel :=
              le_trans
                (by rw [show elemsFuel (e :: es) = 1 + tagFuel e + elemsFuel es from rfl]) hf
            obtain ⟨f, rfl⟩ : ∃ f, fuel = f + 1 := ⟨fuel - 1, by omega⟩
            rw [List.length_cons, load_elems_succ]
            have hE := hloadE f (bsr ++ rest) (by omega)
            rw [hid, hnme] at hE
            rw [List.append_assoc]
            simp only [hE, except_bind_ok, hloadR f rest (by omega)]
    · intro ch hle hv
      cases ch with
      | nil =>
          refine ⟨[0], rfl, ?_⟩
          intro fuel rest acc hf hfresh
          have hf1 : 1 ≤ fuel := le_trans (by rw [show childrenFuel [] = 1 from rfl]) hf
          obtain ⟨f, rfl⟩ : ∃ f, fuel = f + 1 := ⟨fuel - 1, by omega⟩
          simp only [List.cons_append, List.nil_append]
          rw [load_body_stop, List.append_nil]
      | cons c cs =>
          cases hnm : c.name with
          | none =>
              simp only [validChildren, hnm, Bool.false_and, Bool.false_eq_true] at hv
          | some nm =>
              simp only [validChildren, hnm, Bool.and_eq_true, List.all_eq_true,
                decide_eq_true_eq] at hv
              obtain ⟨⟨⟨⟨hthin, hnlen⟩, hdist⟩, hvt⟩, hvcs⟩ := hv
              have hlt1 : tagFuel c < n := by
                have he : childrenFuel (c :: cs) = 1 + tagFuel c + childrenFuel cs := rfl
                omega
              have hlt2 : childrenFuel cs < n := by
                have he : childrenFuel (c :: cs) = 1 + tagFuel c + childrenFuel cs := rfl
                omega
              obtain ⟨pl, hpl, hloadT⟩ := (ih (tagFuel c) hlt1).1 c (le_refl _) hvt
              obtain ⟨bsr, hbsr, hloadR⟩ := (ih (childrenFuel cs) hlt2).2.2 cs (le_refl _) hvcs
              have hthin' : ∀ x ∈ nm, x < 128 := fun x hx => (hthin x hx)
              have hnmU : natToBytesU nm.length 2 = .ok (natToBytesBE 2 nm.length) := by
                rw [natToBytesU, if_pos (by norm_num; omega)]
              have henc : pyEncodeUTF8 nm = .ok nm := by
                rw [pyEncodeUTF8, if_pos (by
                  simp only [List.all_eq_true]
                  intro x hx
                  have := hthin' x hx
                  simp only [validCp, Bool.and_eq_true, Bool.not_eq_true', decide_eq_true_eq,
                    Bool.and_eq_false_iff, decide_eq_false_iff_not]
                  omega)]
                rw [utf8Encode_thin hthin']
              refine ⟨c.get_id :: (natToBytesBE 2 nm.length ++ nm ++ pl ++ bsr), ?_, ?_⟩
              · simp only [TAG_Compound.payload, hnm, hnmU, henc, hpl, hbsr, except_bind_ok]
              · intro fuel rest acc hf hfresh
                have hf1 : 1 + tagFuel c + childrenFuel cs ≤ fuel :=
                  le_trans (by
                    rw [show childrenFuel (c :: cs) = 1 + tagFuel c + childrenFuel cs from rfl])
                    hf
                obtain ⟨f, rfl⟩ : ∃ f, fuel = f + 1 := ⟨fuel - 1, by omega⟩
                rw [TAG_Compound.load_body]
                simp only [List.cons_append, readN_one_cons, bytesToNatBE_one]
                rw [if_neg (by have := get_id_bounds c; omega)]
                have hlen2 : (natToBytesBE 2 nm.length).length = 2 := length_natToBytesBE 2 _
                simp only [List.append_assoc, readN_append 2 (natToBytesBE 2 nm.length)
                  (nm ++ (pl ++ (bsr ++ rest))) hlen2]
                rw [bytesToNatBE_natToBytesBE]
                rw [Nat.mod_eq_of_lt (by norm_num; omega)]
                simp only [readN_append nm.length nm (pl ++ (bsr ++ rest)) rfl]
                simp only [utf8Decode_thin hthin']
                rw [if_pos (get_id_bounds c)]
                have hE := hloadT f (bsr ++ rest) (by omega)
                rw [hnm] at hE
                rw [hE, except_bind_ok]
                have hadd := add_false_of_fresh acc c (by
                  intro x hx
                  exact hfresh x hx c (List.mem_cons_self c cs))
                rw [hadd, except_bind_ok]
                have hR := hloadR f rest (acc ++ [c]) (by omega) (by
                  intro x hx c2 hc2
                  rcases List.mem_append.1 hx with h1 | h1
                  · exact hfresh x h1 c2 (List.mem_cons_of_mem _ hc2)
                  · have hx2 : x = c := by simpa using h1
                    subst hx2
                    intro hcontra
                    rw [hcontra] at hnm
                    exact hdist c2 hc2 hnm)
                rw [hR]
                rw [List.append_assoc]
                rfl

theorem compound_roundtrip (ch : List NBTTag) (nm : Option (List Nat))
    (hv : validChildren ch = true) :
    ∃ bs, TAG_Compound.payload ch = .ok bs ∧
      ∀ fuel rest, childrenFuel ch ≤ fuel →
        TAG_Compound.load fuel nm (bs ++ rest) = .ok (.TAG_Compound nm ch, rest) := by
  obtain ⟨bs, hok, hload⟩ := (roundtrip_master (childrenFuel ch)).2.2 ch (le_refl _) hv
  refine ⟨bs, hok, ?_⟩
  intro fuel rest hf
  rw [TAG_Compound.load]
  rw [hload fuel rest [] hf (fun x hx => absurd hx (List.not_mem_nil x)), except_bind_ok]
  rfl

theorem all_of_findIdx?_none (p : NBTTag → Bool) :
    ∀ (l : List NBTTag) (i : Nat), List.findIdx? p l i = none → ∀ x ∈ l, p x = false := by
  intro l
  induction l with
  | nil => intro i _ x hx; exact absurd hx (List.not_mem_nil x)
  | cons a as ih =>
      intro i h x hx
      rw [List.findIdx?_cons] at h
      by_cases hpa : p a = true
      · rw [hpa] at h
        simp at h
      · rcases List.mem_cons.1 hx with rfl | hxs
        · exact Bool.not_eq_true _ |>.mp hpa
        · have h2 : List.findIdx? p as (i + 1) = none := by
            rw [Bool.not_eq_true] at hpa
            rw [hpa] at h
            simpa using h
          exact ih (i + 1) h2 x hxs

theorem add_false_ok {acc : List NBTTag} {tag : NBTTag} {out : List NBTTag}
    (h : TAG_Compound.add 0 acc tag false = .ok out) :
    out = acc ++ [tag] ∧ ∀ x ∈ acc, x.name ≠ tag.name := by
  rw [TAG_Compound.add] at h
  cases hf : acc.findIdx? (fun x => decide (x.name = tag.name)) with
  | none =>
      rw [hf] at h
      simp only [Except.ok.injEq] at h
      refine ⟨h.symm, ?_⟩
      intro x hx
      have := all_of_findIdx?_none _ acc 0 hf x hx
      simpa using this
  | some i =>
      rw [hf] at h
      simp at h

theorem namesDistinct_snoc (acc : List NBTTag) (t : NBTTag)
    (h1 : namesDistinct acc = true) (h2 : ∀ x ∈ acc, x.name ≠ t.name) :
    namesDistinct (acc ++ [t]) = true := by
  induction acc with
  | nil => rfl
  | cons a as ih =>
      rw [List.cons_append, namesDistinct]
      rw [namesDistinct] at h1
      simp only [Bool.and_eq_true, List.all_eq_true, decide_eq_true_eq] at h1 ⊢
      obtain ⟨ha, has⟩ := h1
      refine ⟨?_, ?_⟩
      · intro x hx
        rcases List.mem_append.1 hx with hx1 | hx1
        · exact ha x hx1
        · have : x = t := by simpa using hx1
          subst this
          intro hc
          exact h2 a (List.mem_cons_self a as) hc.symm
      · have := ih has (fun x hx => h2 x (List.mem_cons_of_mem _ hx))
        simpa only [namesDistinct, Bool.and_eq_true, List.all_eq_true, decide_eq_true_eq]
          using this

theorem tagsNodup_snoc (acc : List NBTTag) (t : NBTTag)
    (h1 : tagsNodup acc = true) (h2 : tagNodup t = true) :
    tagsNodup (acc ++ [t]) = true := by
  induction acc with
  | nil => simpa [tagsNodup]
  | cons a as ih =>
      rw [List.cons_append, tagsNodup]
      rw [tagsNodup] at h1
      simp only [Bool.and_eq_true] at h1 ⊢
      exact ⟨h1.1, ih h1.2⟩

theorem except_bind_eq_ok {α β : Type} {x : Except PyErr α} {g : α → Except PyErr β} {r : β}
    (h : (x >>= g) = .ok r) : ∃ a, x = .ok a ∧ g a = .ok r := by
  cases x with
  | error e => simp [except_bind_err] at h
  | ok a =>
      refine ⟨a, rfl, ?_⟩
      rw [except_bind_ok] at h
      exact h

theorem load_nodup_master : ∀ fuel : Nat,
    (∀ tid nm s t rest, 1 ≤ tid → tid ≤ 12 →
      NBTTag.load fuel tid nm s = .ok (t, rest) → tagNodup t = true) ∧
    (∀ ty cnt s es rest, 1 ≤ ty → ty ≤ 12 →
      TAG_List.load_elems fuel ty cnt s = .ok (es, rest) → tagsNodup es = true) ∧
    (∀ acc s res rest, TAG_Compound.load_body fuel acc s = .ok (res, rest) →
      namesDistinct acc = true → tagsNodup acc = true →
      namesDistinct res = true ∧ tagsNodup res = true) := by
  intro fuel
  induction fuel with
  | zero =>
      refine ⟨?_, ?_, ?_⟩
      · intro tid nm s t rest _ _ h
        simp [NBTTag.load] at h
      · intro ty cnt s es rest _ _ h
        simp [TAG_List.load_elems] at h
      · intro acc s res rest h
        simp [TAG_Compound.load_body] at h
  | succ f ihf =>
      refine ⟨?_, ?_, ?_⟩
      · intro tid nm s t rest h1 h12 h
        have hcases : tid = 1 ∨ tid = 2 ∨ tid = 3 ∨ tid = 4 ∨ tid = 5 ∨ tid = 6 ∨ tid = 7
            ∨ tid = 8 ∨ tid = 9 ∨ tid = 10 ∨ tid = 11 ∨ tid = 12 := by omega
        rcases hcases with rfl | rfl | rfl | rfl | rfl | rfl | rfl | rfl | rfl | rfl | rfl | rfl
        · rw [load_eq_1] at h
          simp only [readN, Except.ok.injEq, Prod.mk.injEq] at h
          obtain ⟨ht, -⟩ := h
          subst ht
          rfl
        · rw [load_eq_2] at h
          simp only [readN, Except.ok.injEq, Prod.mk.injEq] at h
          obtain ⟨ht, -⟩ := h
          subst ht
          rfl
        · rw [load_eq_3] at h
          simp only [readN, Except.ok.injEq, Prod.mk.injEq] at h
          obtain ⟨ht, -⟩ := h
          subst ht
          rfl
        · rw [load_eq_4] at h
          simp only [readN, Except.ok.injEq, Prod.mk.injEq] at h
          obtain ⟨ht, -⟩ := h
          subst ht
          rfl
        · rw [load_eq_5] at h
          simp only [readN] at h
          split at h
          · simp only [Except.ok.injEq, Prod.mk.injEq] at h
            obtain ⟨ht, -⟩ := h
            subst ht
            rfl
          · exact absurd h (by simp)
        · rw [load_eq_6] at h
          simp only [readN] at h
          split at h
          · simp only [Except.ok.injEq, Prod.mk.injEq] at h
            obtain ⟨ht, -⟩ := h
            subst ht
            rfl
          · exact absurd h (by simp)
        · rw [load_eq_7] at h
          simp only [readN] at h
          rcases h2 : NBTTag_Array.load_elems 1 (bytesToIntSigned (s.take 4)).toNat (s.drop 4)
            with ⟨vs, s2⟩
          rw [h2] at h
          simp only [Except.ok.injEq, Prod.mk.injEq] at h
          obtain ⟨ht, -⟩ := h
          subst ht
          rfl
        · rw [load_eq_8] at h
          simp only [readN] at h
          split at h
          · simp only [Except.ok.injEq, Prod.mk.injEq] at h
            obtain ⟨ht, -⟩ := h
            subst ht
            rfl
          · simp at h
        · rw [load_eq_9] at h
          simp only [readN] at h
          by_cases hty : 1 ≤ bytesToIntSigned (s.take 1)
              ∧ bytesToIntSigned (s.take 1) ≤ 12
          · rw [if_pos hty] at h
            split at h
            · exact absurd h (by simp)
            · obtain ⟨⟨es, s3⟩, hload1, h⟩ := except_bind_eq_ok h
              simp only [Except.ok.injEq, Prod.mk.injEq] at h
              obtain ⟨ht, -⟩ := h
              subst ht
              rw [show tagNodup (.TAG_List nm _ es) = tagsNodup es from rfl]
              exact ihf.2.1 _ _ _ _ _ (by omega) (by omega) hload1
          · rw [if_neg hty] at h
            split at h
            · exact absurd h (by simp)
            · rename_i hguard
              obtain ⟨⟨es, s3⟩, hload1, h⟩ := except_bind_eq_ok h
              simp only [Except.ok.injEq, Prod.mk.injEq] at h
              obtain ⟨ht, -⟩ := h
              subst ht
              rw [show tagNodup (.TAG_List nm 0 es) = tagsNodup es from rfl]
              have hcnt : (bytesToIntSigned ((s.drop 1).take 4)).toNat = 0 := by
                by_contra hc
                exact hguard ⟨rfl, by omega⟩
              rw [hcnt] at hload1
              rcases f with _ | f2
              · simp [TAG_List.load_elems] at hload1
              · rw [load_elems_zero] at hload1
                simp only [Except.ok.injEq, Prod.mk.injEq] at hload1
                rw [← hload1.1]
                rfl
        · rw [load_eq_10] at h
          obtain ⟨⟨ch, s3⟩, hload1, h⟩ := except_bind_eq_ok h
          simp only [Except.ok.injEq, Prod.mk.injEq] at h
          obtain ⟨ht, -⟩ := h
          subst ht
          have hr := ihf.2.2 [] s ch s3 hload1 rfl rfl
          rw [show tagNodup (.TAG_Compound nm ch)
              = (namesDistinct ch && tagsNodup ch) from rfl]
          rw [hr.1, hr.2]
          rfl
        · rw [load_eq_11] at h
          simp only [readN] at h
          rcases h2 : NBTTag_Array.load_elems 4 (bytesToIntSigned (s.take 4)).toNat (s.drop 4)
            with ⟨vs, s2⟩
          rw [h2] at h
          simp only [Except.ok.injEq, Prod.mk.injEq] at h
          obtain ⟨ht, -⟩ := h
          subst ht
          rfl
        · rw [load_eq_12] at h
          simp only [readN] at h
          rcases h2 : NBTTag_Array.load_elems 8 (bytesToIntSigned (s.take 4)).toNat (s.drop 4)
            with ⟨vs, s2⟩
          rw [h2] at h
          simp only [Except.ok.injEq, Prod.mk.injEq] at h
          obtain ⟨ht, -⟩ := h
          subst ht
          rfl
      · intro ty cnt s es rest h1 h12 h
        cases cnt with
        | zero =>
            rw [load_elems_zero] at h
            simp only [Except.ok.injEq, Prod.mk.injEq] at h
            obtain ⟨he, -⟩ := h
            subst he
            rfl
        | succ cnt =>
            rw [load_elems_succ] at h
            obtain ⟨⟨t, s1⟩, hload1, h⟩ := except_bind_eq_ok h
            obtain ⟨⟨ts, s2⟩, hload2, h⟩ := except_bind_eq_ok h
            simp only [Except.ok.injEq, Prod.mk.injEq] at h
            obtain ⟨he, -⟩ := h
            subst he
            rw [show tagsNodup (t :: ts) = (tagNodup t && tagsNodup ts) from rfl]
            rw [ihf.1 ty none s t s1 h1 h12 hload1, ihf.2.1 ty cnt s1 ts s2 h1 h12 hload2]
            rfl
      · intro acc s res rest h hnd hts
        rw [TAG_Compound.load_body] at h
        simp only [readN] at h
        by_cases h0 : bytesToNatBE (s.take 1) = 0
        · rw [if_pos h0] at h
          simp only [Except.ok.injEq, Prod.mk.injEq] at h
          obtain ⟨he, -⟩ := h
          subst he
          exact ⟨hnd, hts⟩
        · rw [if_neg h0] at h
          split at h
          · exact absurd h (by simp)
          · split at h
            · rename_i hbound
              obtain ⟨⟨tg, s4⟩, hload1, h⟩ := except_bind_eq_ok h
              obtain ⟨acc2, hadd, h⟩ := except_bind_eq_ok h
              obtain ⟨hacc2, hfresh⟩ := add_false_ok hadd
              subst hacc2
              have htg := ihf.1 _ _ _ _ _ hbound.1 hbound.2 hload1
              exact ihf.2.2 _ _ _ _ h
                (namesDistinct_snoc acc tg hnd hfresh)
                (tagsNodup_snoc acc tg hts htg)
            · exact absurd h (by simp)

/-- C10: the compound decoder adds each child with replace=False, so a byte
stream holding two children of the same name raises ValueError instead of
producing a compound with both; every tag TAG_Compound.load returns has
pairwise-distinct child names in every compound of its tree. -/
theorem C10_decoded_compounds_have_distinct_names (fuel : Nat)
    (nm : Option (List Nat)) (s : List Nat) (t : NBTTag) (rest : List Nat)
    (h : TAG_Compound.load fuel nm s = .ok (t, rest)) : tagNodup t = true := by
  rw [TAG_Compound.load] at h
  obtain ⟨⟨ch, s1⟩, hbody, h⟩ := except_bind_eq_ok h
  simp only [Except.ok.injEq, Prod.mk.injEq] at h
  obtain ⟨ht, -⟩ := h
  subst ht
  have hr := (load_nodup_master fuel).2.2 [] s ch s1 hbody rfl rfl
  rw [show tagNodup (.TAG_Compound nm ch) = (namesDistinct ch && tagsNodup ch) from rfl,
      hr.1, hr.2]
  rfl

theorem C10_decoded_compounds_have_distinct_names_witness :
    tagNodup (NBTTag.TAG_Compound (some []) [NBTTag.TAG_Byte (some [97]) 5]) = true :=
  C10_decoded_compounds_have_distinct_names 3 (some []) [1, 0, 1, 97, 5, 0]
    (NBTTag.TAG_Compound (some []) [NBTTag.TAG_Byte (some [97]) 5]) [] (by rfl)

/-- C2: comparing tags whose class does not override __eq__ (every scalar,
string, float and array class) runs NBTTag.__eq__, whose line 18 evaluates
the undefined identifier TAG_Generic, so Python raises NameError: equality
on scalar tags never returns a boolean, even for two equal TAG_Byte tags. -/
theorem C2_scalar_comparison_raises_NameError :
    pyEq 1 (NBTTag.TAG_Byte none 1) (NBTTag.TAG_Byte none 1) = .error .nameErr ∧
    pyEq 1 (NBTTag.TAG_Byte none 1) (NBTTag.TAG_Short none 1) = .error .nameErr ∧
    pyEq 1 (NBTTag.TAG_String none [97]) (NBTTag.TAG_String none [97]) = .error .nameErr :=
  ⟨rfl, rfl, rfl⟩

/-- C9 counterexample to idempotence: removing a present name succeeds, but
removing the very same name from the result (or any absent name) raises
IndexError, so removing twice is not the same as removing once. -/
theorem C9_remove_counterexample :
    TAG_Compound.delitem 2 [NBTTag.TAG_Byte (some [97]) 1] [97] = .ok [] ∧
    TAG_Compound.delitem 2 [] [97] = .error .indexErr := ⟨rfl, rfl⟩

/-- C9 (amended): __delitem__ first calls get(key) and raises IndexError
whenever the key names no child, so removal of an absent name is an error,
not a no-op. -/
theorem C9_remove_absent_raises_IndexError (fuel : Nat) (ch : List NBTTag)
    (key : List Nat) (h : TAG_Compound.get ch (some key) = none) :
    TAG_Compound.delitem fuel ch key = .error .indexErr := by
  have hall : ∀ x ∈ ch, (decide (x.name = some key) : Bool) = false := by
    rw [TAG_Compound.get, List.find?_eq_none] at h
    intro x hx
    exact Bool.not_eq_true _ |>.mp (h x hx)
  rw [TAG_Compound.delitem,
      findIdx?_none_of (fun t => decide (t.name = some key)) ch hall 0]

theorem C9_remove_absent_raises_IndexError_witness :
    TAG_Compound.delitem 1 [] [97] = .error .indexErr :=
  C9_remove_absent_raises_IndexError 1 [] [97] rfl

/-- C6 counterexample: the stream [1] is truncated in the middle of a child
entry (a TAG_Byte header with no name or payload), yet decoding succeeds
and returns a compound holding a child with empty name and value 0. -/
theorem C6_truncated_counterexample :
    TAG_Compound.load 9 none [1] =
      .ok (NBTTag.TAG_Compound none [NBTTag.TAG_Byte (some []) 0], []) := rfl

/-- C6 (amended): load never sees MalformedData on truncation: an empty
read at end of stream yields b'' whose int.from_bytes is 0, which the child
loop takes for the End marker, and short reads inside a child decode as
zero-extended values, so a truncated compound decodes successfully (shown
for the empty stream and for a stream cut right after a child's id byte). -/
theorem C6_truncated_stream_decodes (nm : Option (List Nat)) :
    TAG_Compound.load 9 nm [] = .ok (NBTTag.TAG_Compound nm [], []) ∧
    TAG_Compound.load 9 nm [1] =
      .ok (NBTTag.TAG_Compound nm [NBTTag.TAG_Byte (some []) 0], []) := ⟨rfl, rfl⟩

/-- C1: line 90 of TAG_Compound.payload writes len(tag.name) - the CHARACTER
count - as the u16 name-length prefix while emitting the UTF-8 BYTES of the
name, so for the one-character name U+00E9 (two UTF-8 bytes) the encoder
emits a prefix of 1, and decoding the encoder's own output cuts the name's
two-byte UTF-8 sequence in half and fails with UnicodeDecodeError. -/
theorem C1_name_prefix_counts_characters_not_bytes :
    TAG_Compound.payload [NBTTag.TAG_Byte (some [233]) 0] =
      .ok [1, 0, 1, 195, 169, 0, 0] ∧
    TAG_Compound.load 9 none [1, 0, 1, 195, 169, 0, 0] = .error .badUTF8 := ⟨rfl, rfl⟩

/-- A one-sector region whose slot (0,0) points at offset 0 with a blob
whose compression-id byte is 4 (not a defined compression id). -/
def c8st : RegionState :=
  ⟨[1], [0], [none], ⟨[0, 0, 0, 6, 4, 1, 0, 0, 7, 0], 0⟩⟩

/-- C8 counterexample: a chunk blob carrying compression id 4 does not fail
- load_chunk decodes its payload as plain uncompressed NBT and returns the
chunk value, never invoking either decompressor (both are functions that
would fail if called). -/
theorem C8_unknown_id_counterexample :
    RegionFile.load_chunk (fun _ => .error .valueErr) (fun _ => .error .valueErr)
      9 c8st 0 0 =
      .ok (⟨[1], [0], [some (.scalar 7)], ⟨[0, 0, 0, 6, 4, 1, 0, 0, 7, 0], 10⟩⟩,
           some (.scalar 7)) := rfl

/-- C8 (amended): the decompression branch of load_chunk recognises only
ids 1 (gzip) and 2 (zlib); ANY other id - 3 included, but also every
undefined id - falls through with the data untouched and is silently
treated as uncompressed, never raising. -/
theorem C8_unknown_compression_id_passes_through
    (gunzip unzlib : List Nat → Except PyErr (List Nat)) (cid : Nat)
    (data : List Nat) (h1 : cid ≠ 1) (h2 : cid ≠ 2) :
    RegionFile.decompress_step gunzip unzlib cid data = .ok data := by
  rw [RegionFile.decompress_step, if_neg h1, if_neg h2]

theorem C8_unknown_compression_id_passes_through_witness :
    RegionFile.decompress_step (fun _ => .error .valueErr)
      (fun _ => .error .valueErr) 4 [5, 6] = .ok [5, 6] :=
  C8_unknown_compression_id_passes_through _ _ 4 [5, 6] (by decide) (by decide)

theorem intToBytesSigned_two_nonneg {v : Int} (h0 : 0 ≤ v) (h1 : v ≤ 32767) :
    intToBytesSigned v 2 = .ok (natToBytesBE 2 v.toNat) := by
  rw [intToBytesSigned, if_pos (by constructor <;> omega)]
  have he : Int.emod v (2 ^ (8 * 2)) = v := by
    apply Int.emod_eq_of_lt h0
    have : ((2 : Int) ^ (8 * 2)) = 65536 := by norm_num
    omega
  rw [he]

/-- C7 counterexample: a 40000-character ASCII string has UTF-8 byte length
40000, within the claimed unsigned-16-bit range [0, 65535], yet encoding
raises: the prefix goes through a TAG_Short whose constructor validates the
length against the SIGNED range [-32768, 32767]. -/
theorem C7_long_string_counterexample :
    NBTTag.payload (NBTTag.TAG_String none (List.replicate 40000 97)) =
      .error .valueConstraint := by
  have hthin : ∀ c ∈ List.replicate 40000 97, c < 128 := by
    intro c hc
    rw [List.eq_of_mem_replicate hc]
    omega
  have hall : (List.replicate 40000 97).all validCp = true := by
    rw [List.all_eq_true]
    intro x hx
    rw [List.eq_of_mem_replicate hx]
    decide
  rw [NBTTag.payload, pyEncodeUTF8, if_pos hall, except_bind_ok,
      utf8Encode_thin hthin, List.length_replicate, if_neg (by omega)]

/-- C7 (amended): TAG_String.payload emits a two-byte big-endian length
prefix holding the UTF-8 BYTE length of the value followed by those bytes,
but the prefix is built as a TAG_Short, so encoding succeeds exactly for
byte lengths in the signed range [0, 32767], not the full unsigned [0,
65535]. -/
theorem C7_string_payload_short_prefix (nm : Option (List Nat)) (s : List Nat)
    (hv : s.all validCp = true) (hl : (utf8Encode s).length ≤ 32767) :
    NBTTag.payload (NBTTag.TAG_String nm s) =
      .ok (natToBytesBE 2 (utf8Encode s).length ++ utf8Encode s) := by
  rw [NBTTag.payload, pyEncodeUTF8, if_pos hv, except_bind_ok,
      if_pos (by constructor <;> omega),
      intToBytesSigned_two_nonneg (by omega) (by omega), except_bind_ok,
      Int.toNat_natCast]

theorem C7_string_payload_short_prefix_witness :
    NBTTag.payload (NBTTag.TAG_String none [97]) =
      .ok (natToBytesBE 2 (utf8Encode [97]).length ++ utf8Encode [97]) :=
  C7_string_payload_short_prefix none [97] (by decide) (by decide)


/-- The byte of a file content at a position (0 beyond the end, the value
the zero-filling writes of PFile.write produce in gaps). -/
def byteAt (l : List Nat) (p : Nat) : Nat := l.getD p 0

/-- How the fix-up loop transforms one location entry: an entry whose
offset exceeds the resized slot's offset moves by the size delta, any other
entry is untouched. -/
def shiftE (o d e : Int) : Int :=
  if o < e.fdiv 256 then (e.fdiv 256 + d) * 256 + e.emod 256 else e

theorem u32Bytes_ok {v : Int} (h0 : 0 ≤ v) (h1 : v < 2 ^ 32) :
    u32Bytes v = .ok (natToBytesBE 4 v.toNat) := by
  rw [u32Bytes, if_pos ⟨h0, h1⟩]

theorem byteAt_pad (l : List Nat) (m i : Nat) :
    byteAt (l ++ List.replicate m 0) i = byteAt l i := by
  rw [byteAt, byteAt, List.getD_eq_getElem?_getD, List.getD_eq_getElem?_getD]
  by_cases h : i < l.length
  · rw [List.getElem?_append_left h]
  · rw [List.getElem?_append_right (by omega)]
    rw [List.getElem?_eq_none (by omega : l.length ≤ i)]
    rw [List.getElem?_replicate]
    split <;> rfl

theorem write_pos (f : PFile) (bs : List Nat) :
    (f.write bs).pos = f.pos + bs.length := rfl

theorem write_data_length (f : PFile) (bs : List Nat) :
    (f.write bs).data.length = max (f.pos + bs.length) f.data.length := by
  rw [PFile.write]
  simp only [List.length_append, List.length_take, List.length_drop,
    List.length_replicate]
  omega

theorem byteAt_write (f : PFile) (bs : List Nat) (i : Nat) :
    byteAt (f.write bs).data i =
      if f.pos ≤ i ∧ i < f.pos + bs.length then bs.getD (i - f.pos) 0
      else byteAt f.data i := by
  rw [PFile.write]
  simp only [List.append_assoc]
  have hbase : (f.data ++ List.replicate (f.pos - f.data.length) 0).length =
      max f.pos f.data.length := by
    simp only [List.length_append, List.length_replicate]; omega
  have htl : (List.take f.pos (f.data ++ List.replicate (f.pos - f.data.length) 0)).length
      = f.pos := by rw [List.length_take]; omega
  by_cases h1 : i < f.pos
  · rw [if_neg (by omega)]
    rw [byteAt, List.getD_eq_getElem?_getD]
    rw [List.getElem?_append_left (by omega)]
    rw [List.getElem?_take_of_lt h1]
    rw [← List.getD_eq_getElem?_getD, ← byteAt, byteAt_pad]
  · by_cases h2 : i < f.pos + bs.length
    · rw [if_pos ⟨by omega, h2⟩]
      rw [byteAt, List.getD_eq_getElem?_getD]
      rw [List.getElem?_append_right (by omega)]
      rw [htl]
      rw [List.getElem?_append_left (by omega)]
      rw [List.getD_eq_getElem?_getD]
    · rw [if_neg (by omega)]
      rw [byteAt, List.getD_eq_getElem?_getD]
      rw [List.getElem?_append_right (by omega)]
      rw [htl]
      rw [List.getElem?_append_right (by omega)]
      rw [List.getElem?_drop]
      have hi2 : f.pos + bs.length + (i - f.pos - bs.length) = i := by omega
      rw [hi2]
      rw [← List.getD_eq_getElem?_getD, ← byteAt, byteAt_pad]

theorem fixup_spec (o d : Int) : ∀ (es : List Int) (f : PFile),
    (∀ e ∈ es, o < e.fdiv 256 →
        0 ≤ (e.fdiv 256 + d) * 256 + e.emod 256 ∧
        (e.fdiv 256 + d) * 256 + e.emod 256 < 2 ^ 32) →
    f.pos + 4 * es.length ≤ f.data.length →
    ∃ f2, RegionFile.fixup o d es f = .ok (es.map (shiftE o d), f2) ∧
      f2.pos = f.pos + 4 * es.length ∧
      f2.data.length = f.data.length ∧
      (∀ i, (i < f.pos ∨ f.pos + 4 * es.length ≤ i) →
         byteAt f2.data i = byteAt f.data i) ∧
      (∀ j k, j < es.length → k < 4 →
         byteAt f2.data (f.pos + 4 * j + k) =
           if o < (es.getD j 0).fdiv 256
           then (natToBytesBE 4 ((shiftE o d (es.getD j 0)).toNat)).getD k 0
           else byteAt f.data (f.pos + 4 * j + k)) := by
  intro es
  induction es with
  | nil =>
      intro f _ _
      refine ⟨f, rfl, by simp, rfl, fun i _ => rfl, fun j k hj _ => absurd hj (by simp)⟩
  | cons e es ih =>
      intro f hrange hb
      rw [List.length_cons] at hb
      by_cases hc : o < e.fdiv 256
      · obtain ⟨hv0, hv1⟩ := hrange e (List.mem_cons_self e es) hc
        have hbs : (natToBytesBE 4 ((e.fdiv 256 + d) * 256 + e.emod 256).toNat).length = 4 :=
          length_natToBytesBE 4 _
        have hwl : (f.write (natToBytesBE 4 ((e.fdiv 256 + d) * 256 + e.emod 256).toNat)).data.length
            = f.data.length := by
          rw [write_data_length, hbs]; omega
        have hwp : (f.write (natToBytesBE 4 ((e.fdiv 256 + d) * 256 + e.emod 256).toNat)).pos
            = f.pos + 4 := by rw [write_pos, hbs]
        obtain ⟨f2, hfix, hp2, hl2, hout, hent⟩ :=
          ih (f.write (natToBytesBE 4 ((e.fdiv 256 + d) * 256 + e.emod 256).toNat))
            (fun x hx h => hrange x (List.mem_cons_of_mem _ hx) h)
            (by rw [hwp, hwl]; omega)
        refine ⟨f2, ?_, ?_, ?_, ?_, ?_⟩
        · rw [RegionFile.fixup]
          simp only [RegionFile.extract_loc]
          rw [if_pos hc]
          rw [u32Bytes_ok hv0 hv1, except_bind_ok, hfix, except_bind_ok]
          rw [List.map_cons]
          rw [show shiftE o d e = (e.fdiv 256 + d) * 256 + e.emod 256 from by
            rw [shiftE, if_pos hc]]
        · rw [hp2, hwp, List.length_cons]; omega
        · rw [hl2, hwl]
        · intro i hi
          rw [hout i (by rw [hwp]; rcases hi with h | h; · omega
                         · right; rw [List.length_cons] at h; omega)]
          rw [byteAt_write, if_neg (by rw [hbs, write_pos] at *; rcases hi with h | h
                                       · omega
                                       · rw [List.length_cons] at h; omega)]
        · intro j k hj hk
          match j with
          | 0 =>
              rw [List.getD_cons_zero]
              rw [if_pos hc]
              have h1 : f.pos + 4 * 0 + k < (f.write (natToBytesBE 4
                  ((e.fdiv 256 + d) * 256 + e.emod 256).toNat)).pos := by
                rw [hwp]; omega
              rw [hout _ (Or.inl h1)]
              rw [byteAt_write, if_pos (by rw [hbs]; omega)]
              rw [show f.pos + 4 * 0 + k - f.pos = k from by omega]
              rw [show shiftE o d e = (e.fdiv 256 + d) * 256 + e.emod 256 from by
                rw [shiftE, if_pos hc]]
          | j' + 1 =>
              rw [List.getD_cons_succ]
              have harith : f.pos + 4 * (j' + 1) + k =
                  (f.write (natToBytesBE 4 ((e.fdiv 256 + d) * 256 + e.emod 256).toNat)).pos
                    + 4 * j' + k := by rw [hwp]; omega
              rw [harith]
              rw [hent j' k (by rw [List.length_cons] at hj; omega) hk]
              split
              · rfl
              · rw [byteAt_write, if_neg (by rw [hbs]; omega)]
      · obtain ⟨f2, hfix, hp2, hl2, hout, hent⟩ :=
          ih (f.seekCur 4)
            (fun x hx h => hrange x (List.mem_cons_of_mem _ hx) h)
            (by simp only [PFile.seekCur]; omega)
        refine ⟨f2, ?_, ?_, ?_, ?_, ?_⟩
        · rw [RegionFile.fixup]
          simp only [RegionFile.extract_loc]
          rw [if_neg hc]
          rw [hfix, except_bind_ok]
          rw [List.map_cons]
          rw [show shiftE o d e = e from by rw [shiftE, if_neg hc]]
        · rw [hp2]; simp only [PFile.seekCur, List.length_cons]; omega
        · exact hl2
        · intro i hi
          exact hout i (by simp only [PFile.seekCur]; rcases hi with h | h
                           · left; omega
                           · right; rw [List.length_cons] at h; omega)
        · intro j k hj hk
          match j with
          | 0 =>
              rw [List.getD_cons_zero]
              rw [if_neg hc]
              have h1 : f.pos + 4 * 0 + k < (f.seekCur 4).pos := by
                simp only [PFile.seekCur]; omega
              exact hout _ (Or.inl h1)
          | j' + 1 =>
              rw [List.getD_cons_succ]
              have harith : f.pos + 4 * (j' + 1) + k = (f.seekCur 4).pos + 4 * j' + k := by
                simp only [PFile.seekCur]; omega
              rw [harith]
              exact hent j' k (by rw [List.length_cons] at hj; omega) hk

theorem getD_mem_int (l : List Int) (i : Nat) (h : i < l.length) : l.getD i 0 ∈ l := by
  rw [List.getD_eq_getElem?_getD, List.getElem?_eq_getElem h]
  exact List.getElem_mem h

theorem getD_set_ne_int (l : List Int) (i j : Nat) (v : Int) (h : i ≠ j) :
    (l.set i v).getD j 0 = l.getD j 0 := by
  rw [List.getD_eq_getElem?_getD, List.getD_eq_getElem?_getD, List.getElem?_set_ne h]

theorem getD_set_self_int (l : List Int) (i : Nat) (v : Int) (h : i < l.length) :
    (l.set i v).getD i 0 = v := by
  rw [List.getD_eq_getElem?_getD, List.getElem?_set_self h]
  rfl

theorem getD_map_shiftE (o d : Int) (l : List Int) (j : Nat) (h : j < l.length) :
    (l.map (shiftE o d)).getD j 0 = shiftE o d (l.getD j 0) := by
  rw [List.getD_eq_getElem?_getD, List.getD_eq_getElem?_getD, List.getElem?_map,
      List.getElem?_eq_getElem h]
  rfl

theorem emod_eq_mod (a b : Int) : Int.emod a b = a % b := rfl

theorem resize_chunk_spec (st : RegionState) (x z : Nat) (size now o s NL d : Int)
    (hx : x < 32) (hz : z < 32)
    (hlen : st.locations.length = 1024)
    (hfl : 8196 ≤ st.file.data.length)
    (hsz : 0 < size ∧ size ≤ 255)
    (hnow : 0 ≤ now ∧ now < 2 ^ 32)
    (hent : ∀ e ∈ st.locations, 0 ≤ e ∧ e < 2 ^ 24)
    (ho : o = (st.locations.getD (x + z * 32) 0).fdiv 256)
    (hs : s = (st.locations.getD (x + z * 32) 0).emod 256)
    (hNL : NL = o * 256 + size)
    (hd : d = size - s)
    (hshift : ∀ e ∈ st.locations, o < e.fdiv 256 → 0 ≤ e.fdiv 256 + d) :
    ∃ f4,
      RegionFile.resize_chunk st x z size now = .ok
        { st with
          locations := (st.locations.set (x + z * 32) NL).map (shiftE o d),
          timestamps := st.timestamps.set (x + z * 32) now,
          file := f4 } ∧
      f4.data.length = st.file.data.length ∧
      (∀ j k, j < 1024 → k < 4 →
        byteAt f4.data (4 * j + k) =
          if o < ((st.locations.set (x + z * 32) NL).getD j 0).fdiv 256 then
            (natToBytesBE 4
              ((shiftE o d ((st.locations.set (x + z * 32) NL).getD j 0)).toNat)).getD k 0
          else if j = x + z * 32 then (natToBytesBE 4 NL.toNat).getD k 0
          else byteAt st.file.data (4 * j + k)) ∧
      (∀ i, 4096 ≤ i →
        byteAt f4.data i =
          if 4 * (x + z * 32) + 4100 ≤ i ∧ i < 4 * (x + z * 32) + 4104 then
            (natToBytesBE 4 now.toNat).getD (i - (4 * (x + z * 32) + 4100)) 0
          else byteAt st.file.data i) := by
  obtain ⟨hsz0, hsz1⟩ := hsz
  obtain ⟨hnow0, hnow1⟩ := hnow
  have hidx : x + z * 32 < 1024 := by omega
  have hmem : st.locations.getD (x + z * 32) 0 ∈ st.locations :=
    getD_mem_int st.locations (x + z * 32) (by omega)
  obtain ⟨hl0, hl1⟩ := hent _ hmem
  have hediv : (st.locations.getD (x + z * 32) 0).fdiv 256
      = st.locations.getD (x + z * 32) 0 / 256 := Int.fdiv_eq_ediv _ (by decide)
  subst hNL hd ho hs
  rw [RegionFile.resize_chunk]
  simp only [RegionFile.extract_loc, Nat.mod_eq_of_lt hx, Nat.mod_eq_of_lt hz]
  rw [if_pos hsz0]
  rw [u32Bytes_ok (by rw [hediv]; omega) (by rw [hediv]; omega), except_bind_ok]
  rw [u32Bytes_ok hnow0 hnow1, except_bind_ok]
  set B1 := natToBytesBE 4
    ((st.locations.getD (x + z * 32) 0).fdiv 256 * 256 + size).toNat with hB1
  set B2 := natToBytesBE 4 now.toNat with hB2
  set F1 := (st.file.seekTo (4 * (x + z * 32))).write B1 with hF1
  set F2 := (F1.seekCur 4096).write B2 with hF2
  have hB1len : B1.length = 4 := length_natToBytesBE 4 _
  have hB2len : B2.length = 4 := length_natToBytesBE 4 _
  have hF1pos : F1.pos = 4 * (x + z * 32) + 4 := by
    rw [hF1, write_pos, hB1len]; simp only [PFile.seekTo]
  have hF1len : F1.data.length = st.file.data.length := by
    rw [hF1, write_data_length, hB1len]; simp only [PFile.seekTo]; omega
  have hF2posbase : (F1.seekCur 4096).pos = 4 * (x + z * 32) + 4100 := by
    simp only [PFile.seekCur]; rw [hF1pos]
  have hF2len : F2.data.length = st.file.data.length := by
    rw [hF2, write_data_length, hB2len, hF2posbase]
    simp only [PFile.seekCur]
    rw [hF1len]
    omega
  have hll : (st.locations.set (x + z * 32)
      ((st.locations.getD (x + z * 32) 0).fdiv 256 * 256 + size)).length = 1024 := by
    rw [List.length_set, hlen]
  have hcond : ∀ e ∈ st.locations.set (x + z * 32)
      ((st.locations.getD (x + z * 32) 0).fdiv 256 * 256 + size),
      (st.locations.getD (x + z * 32) 0).fdiv 256 < e.fdiv 256 →
      0 ≤ (e.fdiv 256 + (size - (st.locations.getD (x + z * 32) 0).emod 256)) * 256
          + e.emod 256 ∧
      (e.fdiv 256 + (size - (st.locations.getD (x + z * 32) 0).emod 256)) * 256
          + e.emod 256 < 2 ^ 32 := by
    intro e he hgt
    rcases List.mem_or_eq_of_mem_set he with hmem' | rfl
    · have hee := hent e hmem'
      have hde : e.fdiv 256 = e / 256 := Int.fdiv_eq_ediv _ (by decide)
      have hsh := hshift e hmem' hgt
      simp only [hde, hediv, emod_eq_mod] at hgt hsh ⊢
      exact ⟨by omega, by omega⟩
    · exfalso
      have hde : (st.locations.getD (x + z * 32) 0 / 256 * 256 + size).fdiv 256
          = (st.locations.getD (x + z * 32) 0 / 256 * 256 + size) / 256 :=
        Int.fdiv_eq_ediv _ (by decide)
      simp only [hediv] at hgt
      rw [hde] at hgt
      omega
  have hbound : (F2.seekTo 0).pos + 4 * (st.locations.set (x + z * 32)
      ((st.locations.getD (x + z * 32) 0).fdiv 256 * 256 + size)).length
      ≤ (F2.seekTo 0).data.length := by
    simp only [PFile.seekTo]
    rw [hll, hF2len]
    omega
  obtain ⟨f4, hfix, hp4, hl4, hout4, hent4⟩ :=
    fixup_spec ((st.locations.getD (x + z * 32) 0).fdiv 256)
      (size - (st.locations.getD (x + z * 32) 0).emod 256)
      (st.locations.set (x + z * 32)
        ((st.locations.getD (x + z * 32) 0).fdiv 256 * 256 + size))
      (F2.seekTo 0) hcond hbound
  rw [hfix, except_bind_ok]
  refine ⟨f4, rfl, ?_, ?_, ?_⟩
  · rw [hl4]; simp only [PFile.seekTo]; exact hF2len
  · intro j k hj hk
    have h1 := hent4 j k (by rw [hll]; exact hj) hk
    simp only [PFile.seekTo, Nat.zero_add] at h1
    rw [h1]
    by_cases hsh : (st.locations.getD (x + z * 32) 0).fdiv 256 <
        ((st.locations.set (x + z * 32)
          ((st.locations.getD (x + z * 32) 0).fdiv 256 * 256 + size)).getD j 0).fdiv 256
    · rw [if_pos hsh, if_pos hsh]
    · rw [if_neg hsh, if_neg hsh]
      rw [hF2, byteAt_write, if_neg (by rw [hF2posbase, hB2len]; omega)]
      simp only [PFile.seekCur]
      rw [hF1, byteAt_write, hB1len]
      simp only [PFile.seekTo]
      by_cases hje : j = x + z * 32
      · subst hje
        rw [if_pos (by omega), if_pos rfl]
        rw [show 4 * (x + z * 32) + k - 4 * (x + z * 32) = k from by omega]
      · rw [if_neg (by omega), if_neg hje]
  · intro i hi
    have h1 := hout4 i (by right; simp only [PFile.seekTo]; rw [hll]; omega)
    simp only [PFile.seekTo] at h1
    rw [h1]
    rw [hF2, byteAt_write, hF2posbase, hB2len]
    by_cases hzone : 4 * (x + z * 32) + 4100 ≤ i ∧ i < 4 * (x + z * 32) + 4104
    · rw [if_pos ⟨hzone.1, hzone.2⟩, if_pos hzone]
    · rw [if_neg hzone, if_neg hzone]
      simp only [PFile.seekCur]
      rw [hF1, byteAt_write, hB1len]
      simp only [PFile.seekTo]
      rw [if_neg (by omega)]

/-- C3: __resize_chunk stores the slot's new location entry at byte
4*index and its timestamp in the in-memory table, but the file write of
the timestamp seeks 4096 bytes forward from a position that is already 4
bytes past the location entry, so the four timestamp bytes land at
4096 + 4*index + 4 - the header entry of the NEXT slot - while the slot's
own timestamp entry at 4096 + 4*index is left untouched. -/
theorem C3_timestamp_written_one_entry_late
    (st : RegionState) (x z : Nat) (size now : Int)
    (hx : x < 32) (hz : z < 32)
    (hlen : st.locations.length = 1024)
    (htlen : st.timestamps.length = 1024)
    (hfl : 8196 ≤ st.file.data.length)
    (hsz : 0 < size ∧ size ≤ 255)
    (hnow : 0 ≤ now ∧ now < 2 ^ 32)
    (hent : ∀ e ∈ st.locations, 0 ≤ e ∧ e < 2 ^ 24)
    (hshift : ∀ e ∈ st.locations,
        (st.locations.getD (x + z * 32) 0).fdiv 256 < e.fdiv 256 →
        0 ≤ e.fdiv 256 + (size - (st.locations.getD (x + z * 32) 0).emod 256)) :
    ∃ st2, RegionFile.resize_chunk st x z size now = .ok st2 ∧
      st2.timestamps.getD (x + z * 32) 0 = now ∧
      (∀ k, k < 4 → byteAt st2.file.data (4096 + 4 * (x + z * 32) + k) =
        byteAt st.file.data (4096 + 4 * (x + z * 32) + k)) ∧
      (∀ k, k < 4 → byteAt st2.file.data (4096 + 4 * (x + z * 32) + 4 + k) =
        (natToBytesBE 4 now.toNat).getD k 0) := by
  obtain ⟨f4, hok, hflen, hA, hB⟩ :=
    resize_chunk_spec st x z size now _ _ _ _ hx hz hlen hfl hsz hnow hent
      rfl rfl rfl rfl hshift
  refine ⟨_, hok, ?_, ?_, ?_⟩
  · exact getD_set_self_int st.timestamps (x + z * 32) now (by omega)
  · intro k hk
    show byteAt f4.data (4096 + 4 * (x + z * 32) + k) = _
    rw [hB _ (by omega), if_neg (by omega)]
  · intro k hk
    show byteAt f4.data (4096 + 4 * (x + z * 32) + 4 + k) = _
    rw [hB _ (by omega), if_pos ⟨by omega, by omega⟩]
    rw [show 4096 + 4 * (x + z * 32) + 4 + k - (4 * (x + z * 32) + 4100) = k from by omega]

/-- A fresh region file: empty location and timestamp tables over a
12288-byte file of zeros (header plus one empty sector). -/
def freshRegion : RegionState :=
  ⟨List.replicate 1024 0, List.replicate 1024 0, List.replicate 1024 none,
   ⟨List.replicate 12288 0, 0⟩⟩

theorem C3_timestamp_written_one_entry_late_witness :
    ∃ st2, RegionFile.resize_chunk freshRegion 0 0 1 7 = .ok st2 ∧
      st2.timestamps.getD (0 + 0 * 32) 0 = 7 ∧
      (∀ k, k < 4 → byteAt st2.file.data (4096 + 4 * (0 + 0 * 32) + k) =
        byteAt freshRegion.file.data (4096 + 4 * (0 + 0 * 32) + k)) ∧
      (∀ k, k < 4 → byteAt st2.file.data (4096 + 4 * (0 + 0 * 32) + 4 + k) =
        (natToBytesBE 4 (7 : Int).toNat).getD k 0) :=
  C3_timestamp_written_one_entry_late freshRegion 0 0 1 7
    (by decide) (by decide)
    (List.length_replicate 1024 0)
    (List.length_replicate 1024 0)
    (by rw [show freshRegion.file.data.length = 12288 from List.length_replicate 12288 0]
        omega)
    (by decide) (by decide)
    (by intro e he; rw [List.eq_of_mem_replicate he]; decide)
    (by intro e he hgt; rw [List.eq_of_mem_replicate he]; decide)

/-- C4: after resize_chunk on the slot at index x + z*32 with location
offset o and old size s, every other slot whose offset was strictly
greater than o has its entry - both in the in-memory table and in its
four header bytes - changed to ((offset + (new_size - s)) << 8) | size,
while every other slot whose offset was at most o (a colocated slot
included) keeps its table entry and its header bytes unchanged. -/
theorem C4_resize_shifts_only_greater_offsets
    (st : RegionState) (x z : Nat) (size now : Int)
    (hx : x < 32) (hz : z < 32)
    (hlen : st.locations.length = 1024)
    (hfl : 8196 ≤ st.file.data.length)
    (hsz : 0 < size ∧ size ≤ 255)
    (hnow : 0 ≤ now ∧ now < 2 ^ 32)
    (hent : ∀ e ∈ st.locations, 0 ≤ e ∧ e < 2 ^ 24)
    (hshift : ∀ e ∈ st.locations,
        (st.locations.getD (x + z * 32) 0).fdiv 256 < e.fdiv 256 →
        0 ≤ e.fdiv 256 + (size - (st.locations.getD (x + z * 32) 0).emod 256)) :
    ∃ st2, RegionFile.resize_chunk st x z size now = .ok st2 ∧
      ∀ j, j < 1024 → j ≠ x + z * 32 →
        ((st.locations.getD (x + z * 32) 0).fdiv 256 <
            (st.locations.getD j 0).fdiv 256 →
          st2.locations.getD j 0 =
            ((st.locations.getD j 0).fdiv 256 +
                (size - (st.locations.getD (x + z * 32) 0).emod 256)) * 256 +
              (st.locations.getD j 0).emod 256 ∧
          ∀ k, k < 4 → byteAt st2.file.data (4 * j + k) =
            (natToBytesBE 4 (((st.locations.getD j 0).fdiv 256 +
                (size - (st.locations.getD (x + z * 32) 0).emod 256)) * 256 +
              (st.locations.getD j 0).emod 256).toNat).getD k 0) ∧
        (¬ (st.locations.getD (x + z * 32) 0).fdiv 256 <
            (st.locations.getD j 0).fdiv 256 →
          st2.locations.getD j 0 = st.locations.getD j 0 ∧
          ∀ k, k < 4 → byteAt st2.file.data (4 * j + k) =
            byteAt st.file.data (4 * j + k)) := by
  obtain ⟨f4, hok, hflen, hA, hB⟩ :=
    resize_chunk_spec st x z size now _ _ _ _ hx hz hlen hfl hsz hnow hent
      rfl rfl rfl rfl hshift
  refine ⟨_, hok, ?_⟩
  intro j hj hne
  have hset : (st.locations.set (x + z * 32)
      ((st.locations.getD (x + z * 32) 0).fdiv 256 * 256 + size)).getD j 0 =
      st.locations.getD j 0 :=
    getD_set_ne_int _ _ _ _ (fun h => hne h.symm)
  have hmap : ((st.locations.set (x + z * 32)
      ((st.locations.getD (x + z * 32) 0).fdiv 256 * 256 + size)).map
        (shiftE ((st.locations.getD (x + z * 32) 0).fdiv 256)
          (size - (st.locations.getD (x + z * 32) 0).emod 256))).getD j 0 =
      shiftE ((st.locations.getD (x + z * 32) 0).fdiv 256)
        (size - (st.locations.getD (x + z * 32) 0).emod 256)
        (st.locations.getD j 0) := by
    rw [getD_map_shiftE _ _ _ j (by rw [List.length_set, hlen]; exact hj), hset]
  constructor
  · intro hgt
    constructor
    · show ((st.locations.set _ _).map _).getD j 0 = _
      rw [hmap, shiftE, if_pos hgt]
    · intro k hk
      show byteAt f4.data (4 * j + k) = _
      rw [hA j k hj hk, hset, if_pos hgt, shiftE, if_pos hgt]
  · intro hgt
    constructor
    · show ((st.locations.set _ _).map _).getD j 0 = _
      rw [hmap, shiftE, if_neg hgt]
    · intro k hk
      show byteAt f4.data (4 * j + k) = _
      rw [hA j k hj hk, hset, if_neg hgt, if_neg hne]

/-- A region holding a resized slot at offset 2 size 1 (entry 513, header
index 0), a slot above it at offset 5 (entry 1281, index 1) and a slot
below it at offset 1 (entry 257, index 2). -/
def c4st : RegionState :=
  ⟨(((List.replicate 1024 0).set 0 513).set 1 1281).set 2 257,
   List.replicate 1024 0, List.replicate 1024 none,
   ⟨List.replicate 12288 0, 0⟩⟩

theorem C4_resize_shifts_only_greater_offsets_witness :
    ∃ st2, RegionFile.resize_chunk c4st 0 0 3 7 = .ok st2 ∧
      ∀ j, j < 1024 → j ≠ 0 + 0 * 32 →
        ((c4st.locations.getD (0 + 0 * 32) 0).fdiv 256 <
            (c4st.locations.getD j 0).fdiv 256 →
          st2.locations.getD j 0 =
            ((c4st.locations.getD j 0).fdiv 256 +
                (3 - (c4st.locations.getD (0 + 0 * 32) 0).emod 256)) * 256 +
              (c4st.locations.getD j 0).emod 256 ∧
          ∀ k, k < 4 → byteAt st2.file.data (4 * j + k) =
            (natToBytesBE 4 (((c4st.locations.getD j 0).fdiv 256 +
                (3 - (c4st.locations.getD (0 + 0 * 32) 0).emod 256)) * 256 +
              (c4st.locations.getD j 0).emod 256).toNat).getD k 0) ∧
        (¬ (c4st.locations.getD (0 + 0 * 32) 0).fdiv 256 <
            (c4st.locations.getD j 0).fdiv 256 →
          st2.locations.getD j 0 = c4st.locations.getD j 0 ∧
          ∀ k, k < 4 → byteAt st2.file.data (4 * j + k) =
            byteAt c4st.file.data (4 * j + k)) :=
  C4_resize_shifts_only_greater_offsets c4st 0 0 3 7
    (by decide) (by decide)
    (by rw [show c4st.locations.length =
          ((((List.replicate 1024 (0 : Int)).set 0 513).set 1 1281).set 2 257).length
          from rfl, List.length_set, List.length_set, List.length_set,
          List.length_replicate])
    (by rw [show c4st.file.data.length = 12288 from List.length_replicate 12288 0]
        omega)
    (by decide) (by decide)
    (by intro e he
        rcases List.mem_or_eq_of_mem_set he with he1 | rfl
        · rcases List.mem_or_eq_of_mem_set he1 with he2 | rfl
          · rcases List.mem_or_eq_of_mem_set he2 with he3 | rfl
            · rw [List.eq_of_mem_replicate he3]; decide
            · decide
          · decide
        · decide)
    (by intro e he hgt
        rcases List.mem_or_eq_of_mem_set he with he1 | rfl
        · rcases List.mem_or_eq_of_mem_set he1 with he2 | rfl
          · rcases List.mem_or_eq_of_mem_set he2 with he3 | rfl
            · rw [List.eq_of_mem_replicate he3] at hgt ⊢
              exact absurd hgt (by decide)
            · decide
          · decide
        · decide)

theorem drop_append_add {α : Type} (A B : List α) (m : Nat) :
    (A ++ B).drop (A.length + m) = B.drop m := by
  rw [← List.drop_drop, drop_append_length]

theorem readNF_tail (A B : List Nat) (m n : Nat) (h : m + n ≤ B.length) :
    PFile.readNF ⟨A ++ B, A.length + m⟩ n =
      ((B.drop m).take n, ⟨A ++ B, A.length + m + n⟩) := by
  rw [PFile.readNF]
  simp only [drop_append_add]
  have h2 : ((B.drop m).take n).length = n := by
    rw [List.length_take, List.length_drop]; omega
  rw [h2]

theorem readAll_at_end (D : List Nat) (p : Nat) (h : D.length ≤ p) :
    PFile.readAll ⟨D, p⟩ = ([], ⟨D, p⟩) := by
  rw [PFile.readAll]
  simp only [List.drop_eq_nil_of_le h, List.length_nil, Nat.add_zero]

theorem write_at_end (D bs : List Nat) :
    PFile.write ⟨D, D.length⟩ bs = ⟨D ++ bs, D.length + bs.length⟩ := by
  rw [PFile.write]
  simp only [Nat.sub_self, List.replicate_zero, List.append_nil, List.take_length]
  rw [List.drop_eq_nil_of_le (by simp), List.append_nil]

theorem write_at_end' (D bs : List Nat) (p : Nat) (h : p = D.length) :
    PFile.write ⟨D, p⟩ bs = ⟨D ++ bs, p + bs.length⟩ := by
  subst h
  exact write_at_end D bs

theorem trunc_at_end (D : List Nat) (p : Nat) (h : D.length ≤ p) :
    PFile.trunc ⟨D, p⟩ = ⟨D, p⟩ := by
  rw [PFile.trunc]
  simp only [List.take_of_length_le h]

theorem getD_set_self {α : Type} (l : List α) (i : Nat) (v dflt : α)
    (h : i < l.length) : (l.set i v).getD i dflt = v := by
  rw [List.getD_eq_getElem?_getD, List.getElem?_set_self h]
  rfl

theorem getD_replicate {α : Type} (n i : Nat) (a dflt : α) (h : i < n) :
    (List.replicate n a).getD i dflt = a := by
  rw [List.getD_eq_getElem?_getD, List.getElem?_replicate, if_pos h]
  rfl

theorem load_chunk_spec
    (gz uz : List Nat → Except PyErr (List Nat)) (fuel : Nat) (st : RegionState)
    (x z : Nat) (A d2 tail d : List Nat) (cid : Nat) (C : NBTTag)
    (hloc0 : ¬ st.locations.getD (x + z * 32) 0 = 0)
    (hoff : 4096 * ((st.locations.getD (x + z * 32) 0).fdiv 256).toNat = A.length)
    (hdata : st.file.data = A ++ (natToBytesBE 4 (d2.length + 1) ++ cid :: (d2 ++ tail)))
    (hlen2 : d2.length + 1 < 2 ^ 32)
    (hdec : RegionFile.decompress_step gz uz cid d2 = .ok d)
    (hload : TAG_Compound.load fuel none d = .ok (.TAG_Compound none [C], [])) :
    (TAG_Compound.get [C] (some []) = none →
       RegionFile.load_chunk gz uz fuel st x z = .error .indexErr) ∧
    (∀ t, TAG_Compound.get [C] (some []) = some t →
       ∃ st3, RegionFile.load_chunk gz uz fuel st x z =
         .ok (st3, some (NBTTag.value t))) := by
  have hBlen : (natToBytesBE 4 (d2.length + 1) ++ cid :: (d2 ++ tail)).length
      = d2.length + 5 + tail.length := by
    simp only [List.length_append, List.length_cons, length_natToBytesBE]
    omega
  have htake4 : (natToBytesBE 4 (d2.length + 1) ++ cid :: (d2 ++ tail)).take 4
      = natToBytesBE 4 (d2.length + 1) := by
    have h := take_append_length (natToBytesBE 4 (d2.length + 1)) (cid :: (d2 ++ tail))
    rwa [length_natToBytesBE] at h
  have hdrop4 : (natToBytesBE 4 (d2.length + 1) ++ cid :: (d2 ++ tail)).drop 4
      = cid :: (d2 ++ tail) := by
    have h := drop_append_length (natToBytesBE 4 (d2.length + 1)) (cid :: (d2 ++ tail))
    rwa [length_natToBytesBE] at h
  have hdrop5 : (natToBytesBE 4 (d2.length + 1) ++ cid :: (d2 ++ tail)).drop 5
      = d2 ++ tail := by
    rw [show (5 : Nat) = 4 + 1 from rfl, ← List.drop_drop, hdrop4]
    rfl
  have hlenval : bytesToNatBE (natToBytesBE 4 (d2.length + 1)) = d2.length + 1 := by
    rw [bytesToNatBE_natToBytesBE]
    apply Nat.mod_eq_of_lt
    have h4 : (256 : Nat) ^ 4 = 2 ^ 32 := by norm_num
    omega
  have hmain : RegionFile.load_chunk gz uz fuel st x z =
      match TAG_Compound.get [C] (some []) with
      | none => .error .indexErr
      | some t =>
          .ok ({ st with
                 chunks := st.chunks.set (x + z * 32) (some (NBTTag.value t)),
                 file := ⟨st.file.data,
                   A.length + 0 + 4 + 1 + d2.length⟩ }, some (NBTTag.value t)) := by
    rw [RegionFile.load_chunk]
    rw [if_neg hloc0]
    simp only [PFile.seekTo, RegionFile.extract_loc]
    rw [hoff, hdata]
    rw [show A.length = A.length + 0 from (Nat.add_zero _).symm]
    rw [readNF_tail A _ 0 4 (by omega)]
    simp only [List.drop_zero]
    rw [htake4, hlenval]
    rw [show A.length + 0 + 4 = A.length + 4 from by omega]
    rw [readNF_tail A _ 4 1 (by omega)]
    rw [hdrop4]
    rw [show (cid :: (d2 ++ tail)).take 1 = [cid] from rfl, bytesToNatBE_one]
    rw [if_neg (by omega)]
    rw [show d2.length + 1 - 1 = d2.length from by omega]
    rw [show A.length + 4 + 1 = A.length + 5 from by omega]
    rw [readNF_tail A _ 5 d2.length (by omega)]
    rw [hdrop5, take_append_length]
    rw [hdec, except_bind_ok]
    rw [hload, except_bind_ok]
  constructor
  · intro hget
    rw [hmain, hget]
  · intro t hget
    rw [hmain, hget]
    exact ⟨_, rfl⟩

theorem splice_blob_spec (st1 : RegionState) (x z NSEC SEC : Nat)
    (blob : List Nat) (now : Int)
    (hx : x < 32) (hz : z < 32)
    (hlen1 : st1.locations.length = 1024)
    (hL1 : st1.file.data.length = 4096 * NSEC)
    (hN3 : 3 ≤ NSEC) (hN : NSEC ≤ 65535)
    (hloc1 : st1.locations.getD (x + z * 32) 0 = (NSEC : Int) * 256)
    (hent1 : ∀ e ∈ st1.locations, 0 ≤ e ∧ e < 2 ^ 24)
    (hbelow1 : ∀ e ∈ st1.locations, e.fdiv 256 ≤ (NSEC : Int))
    (hblen : blob.length = 4096 * SEC)
    (hS1 : 1 ≤ SEC) (hS255 : SEC ≤ 255)
    (hnow : 0 ≤ now ∧ now < 2 ^ 32) :
    ∃ f4 : PFile,
      RegionFile.splice_blob st1 x z (NSEC * 4096) 0 blob now = .ok
        ⟨(st1.locations.set (x + z * 32) ((NSEC : Int) * 256 + (SEC : Nat))).map
            (shiftE (NSEC : Int) ((SEC : Nat) : Int)),
          st1.timestamps.set (x + z * 32) now, st1.chunks,
          ⟨f4.data ++ blob, NSEC * 4096 + blob.length⟩⟩ ∧
      f4.data.length = 4096 * NSEC := by
  have hidx : x + z * 32 < 1024 := by omega
  have hfd : ((NSEC : Int) * 256).fdiv 256 = (NSEC : Int) := by
    rw [Int.fdiv_eq_ediv _ (by decide)]
    omega
  have hem : ((NSEC : Int) * 256).emod 256 = 0 := by
    rw [emod_eq_mod]
    omega
  have hshift1 : ∀ e ∈ st1.locations,
      (st1.locations.getD (x + z * 32) 0).fdiv 256 < e.fdiv 256 →
      0 ≤ e.fdiv 256 + (((SEC : Nat) : Int) -
        (st1.locations.getD (x + z * 32) 0).emod 256) := by
    intro e he hgt
    rw [hloc1, hfd] at hgt
    exact absurd hgt (not_lt.2 (hbelow1 e he))
  rw [RegionFile.splice_blob]
  rw [show ((blob.length / 4096 : Nat) : Int) = ((SEC : Nat) : Int) from by
    rw [hblen]
    congr 1
    omega]
  obtain ⟨f4, hrok, hflen4, hA4, hB4⟩ :=
    resize_chunk_spec st1 x z ((SEC : Nat) : Int) now _ _ _ _ hx hz hlen1
      (by omega) (by constructor <;> omega) hnow hent1 rfl rfl rfl rfl hshift1
  rw [hrok, except_bind_ok]
  simp only [hloc1, hfd, hem, sub_zero]
  have hf4len : f4.data.length = 4096 * NSEC := by
    rw [hflen4]
    exact hL1
  simp only [PFile.seekTo, Nat.add_zero]
  have hra : PFile.readAll ⟨f4.data, NSEC * 4096⟩ = ([], ⟨f4.data, NSEC * 4096⟩) :=
    readAll_at_end _ _ (by omega)
  simp only [hra]
  have hw1 : PFile.write ⟨f4.data, NSEC * 4096⟩ blob =
      ⟨f4.data ++ blob, NSEC * 4096 + blob.length⟩ :=
    write_at_end' _ _ _ (by omega)
  simp only [hw1]
  have hw2 : PFile.write ⟨f4.data ++ blob, NSEC * 4096 + blob.length⟩ [] =
      ⟨f4.data ++ blob, NSEC * 4096 + blob.length⟩ := by
    rw [write_at_end' _ _ _ (by simp only [List.length_append]; omega)]
    simp only [List.append_nil, List.length_nil, Nat.add_zero]
  simp only [hw2]
  have htr : PFile.trunc ⟨f4.data ++ blob, NSEC * 4096 + blob.length⟩ =
      ⟨f4.data ++ blob, NSEC * 4096 + blob.length⟩ :=
    trunc_at_end _ _ (by simp only [List.length_append]; omega)
  simp only [htr]
  exact ⟨f4, rfl, hf4len⟩

theorem build_blob_spec (d2 : List Nat) (cid : Nat) (h : d2.length + 1 < 2 ^ 32) :
    RegionFile.build_blob d2 cid = .ok ((natToBytesBE 4 (d2.length + 1) ++ cid :: d2)
      ++ List.replicate ((4096 - (d2.length + 5) % 4096) % 4096) 0) := by
  rw [RegionFile.build_blob]
  rw [show u32Bytes ((d2.length : Int) + 1) = .ok (natToBytesBE 4 (d2.length + 1)) from by
    rw [u32Bytes_ok (by omega) (by omega)]
    rw [show ((d2.length : Int) + 1).toNat = d2.length + 1 from by omega]]
  simp only [except_bind_ok]
  rw [show (natToBytesBE 4 (d2.length + 1) ++ cid :: d2).length = d2.length + 5 from by
    simp only [List.length_append, List.length_cons, length_natToBytesBE]
    omega]

theorem save_then_load_spec
    (gzipC zlibC : List Nat → List Nat)
    (gunzip unzlib : List Nat → Except PyErr (List Nat))
    (st : RegionState) (x z NSEC : Nat) (C : NBTTag) (k d d2 : List Nat)
    (now : Int) (fuel : Nat)
    (hx : x < 32) (hz : z < 32)
    (hchunk : st.chunks.getD (x + z * 32) none = some (.tag C))
    (hloc0 : st.locations.getD (x + z * 32) 0 = 0)
    (hlen : st.locations.length = 1024)
    (hL : st.file.data.length = 4096 * NSEC)
    (hN3 : 3 ≤ NSEC) (hN : NSEC ≤ 65535)
    (hent : ∀ e ∈ st.locations, 0 ≤ e ∧ e < 2 ^ 24)
    (hbelow : ∀ e ∈ st.locations, e.fdiv 256 ≤ (NSEC : Int))
    (hd : TAG_Compound.payload [C] = .ok d)
    (hload : TAG_Compound.load fuel none d = .ok (.TAG_Compound none [C], []))
    (hk : k = gzipName ∧ d2 = gzipC d ∧ gunzip d2 = .ok d
        ∨ k = zlibName ∧ d2 = zlibC d ∧ unzlib d2 = .ok d
        ∨ k = noneName ∧ d2 = d)
    (hd2 : d2.length + 6 ≤ 1044480)
    (hnow : 0 ≤ now ∧ now < 2 ^ 32) :
    ∃ st2,
      RegionFile.save_chunk gzipC zlibC st x z k now = .ok st2 ∧
      (TAG_Compound.get [C] (some []) = none →
        RegionFile.load_chunk gunzip unzlib fuel st2 x z = .error .indexErr) ∧
      (∀ t, TAG_Compound.get [C] (some []) = some t →
        ∃ st3, RegionFile.load_chunk gunzip unzlib fuel st2 x z =
          .ok (st3, some (NBTTag.value t))) := by
  have hidx : x + z * 32 < 1024 := by omega
  obtain ⟨cid, hsel, hdec⟩ : ∃ cid : Nat,
      RegionFile.select_compression gzipC zlibC k d = Except.ok ((d2, cid)) ∧
      RegionFile.decompress_step gunzip unzlib cid d2 = .ok d := by
    rcases hk with ⟨hk1, hk2, hk3⟩ | ⟨hk1, hk2, hk3⟩ | ⟨hk1, hk2⟩
    · subst hk1; subst hk2
      exact ⟨1, by rw [RegionFile.select_compression, if_pos rfl],
        by rw [RegionFile.decompress_step, if_pos rfl]; exact hk3⟩
    · subst hk1; subst hk2
      refine ⟨2, ?_, ?_⟩
      · rw [RegionFile.select_compression, if_neg (by decide), if_pos rfl]
      · rw [RegionFile.decompress_step, if_neg (by decide), if_pos rfl]; exact hk3
    · subst hk1; subst hk2
      refine ⟨3, ?_, ?_⟩
      · rw [RegionFile.select_compression, if_neg (by decide), if_neg (by decide),
            if_pos rfl]
      · rw [RegionFile.decompress_step, if_neg (by decide), if_neg (by decide)]
  set PAD := (4096 - (d2.length + 5) % 4096) % 4096 with hPAD
  have hbloblen : ((natToBytesBE 4 (d2.length + 1) ++ cid :: d2)
      ++ List.replicate PAD 0).length = d2.length + 5 + PAD := by
    simp only [List.length_append, List.length_cons, length_natToBytesBE,
      List.length_replicate]
    omega
  have hge : 4096 ≤ d2.length + 5 + PAD := by rw [hPAD]; omega
  have hle : d2.length + 5 + PAD ≤ 1044480 := by rw [hPAD]; omega
  set SEC := (d2.length + 5 + PAD) / 4096 with hSEC
  have hSEC1 : 1 ≤ SEC := by rw [hSEC]; omega
  have hSEC255 : SEC ≤ 255 := by rw [hSEC]; omega
  rw [RegionFile.save_chunk]
  rw [hchunk]
  rw [hloc0]
  rw [if_pos (rfl : (0 : Int) = 0)]
  rw [hL, show (4096 * NSEC / 4096 : Nat) = NSEC from by omega]
  have hgl : (st.locations.set (x + z * 32) ((NSEC : Int) * 256)).getD (x + z * 32) 0
      = (NSEC : Int) * 256 := getD_set_self_int _ _ _ (by omega)
  have hfd : ((NSEC : Int) * 256).fdiv 256 = (NSEC : Int) := by
    rw [Int.fdiv_eq_ediv _ (by decide)]
    omega
  have hem : ((NSEC : Int) * 256).emod 256 = 0 := by
    rw [emod_eq_mod]
    omega
  simp only [RegionFile.extract_loc, hgl, hfd, hem, Int.toNat_natCast, Int.toNat_zero,
    Nat.zero_mul, Nat.add_zero]
  generalize hST1 : (⟨st.locations.set (x + z * 32) ((NSEC : Int) * 256),
      st.timestamps, st.chunks, st.file⟩ : RegionState) = ST1
  have hST1loc : ST1.locations = st.locations.set (x + z * 32) ((NSEC : Int) * 256) := by
    rw [← hST1]
  have hST1file : ST1.file = st.file := by
    rw [← hST1]
  rw [except_bind_ok]
  rw [hd]
  rw [except_bind_ok]
  rw [hsel]
  rw [except_bind_ok]
  rw [show ((d2, cid) : List Nat × Nat).1 = d2 from rfl]
  rw [show ((d2, cid) : List Nat × Nat).2 = cid from rfl]
  rw [build_blob_spec d2 cid (by omega)]
  rw [except_bind_ok]
  rw [← hPAD]
  have hbelow1 : ∀ e ∈ st.locations.set (x + z * 32) ((NSEC : Int) * 256),
      e.fdiv 256 ≤ (NSEC : Int) := by
    intro e he
    rcases List.mem_or_eq_of_mem_set he with h1 | rfl
    · exact hbelow e h1
    · exact le_of_eq hfd
  have hent1 : ∀ e ∈ st.locations.set (x + z * 32) ((NSEC : Int) * 256),
      0 ≤ e ∧ e < 2 ^ 24 := by
    intro e he
    rcases List.mem_or_eq_of_mem_set he with h1 | rfl
    · exact hent e h1
    · exact ⟨by omega, by omega⟩
  obtain ⟨f4, hsok, hf4len⟩ :=
    splice_blob_spec ST1 x z NSEC SEC
      (natToBytesBE 4 (d2.length + 1) ++ cid :: d2 ++ List.replicate PAD 0) now
      hx hz
      (by rw [hST1loc]; simp only [List.length_set]; exact hlen)
      (by rw [hST1file]; exact hL)
      hN3 hN
      (by rw [hST1loc]; exact hgl)
      (by rw [hST1loc]; exact hent1)
      (by rw [hST1loc]; exact hbelow1)
      (by rw [hbloblen, hSEC]; omega)
      hSEC1 hSEC255 hnow
  rw [hsok]
  have hfd2 : ((NSEC : Int) * 256 + ((SEC : Nat) : Int)).fdiv 256 = (NSEC : Int) := by
    rw [Int.fdiv_eq_ediv _ (by decide)]
    omega
  have hlenST1 : ST1.locations.length = 1024 := by
    rw [hST1loc]
    simp only [List.length_set]
    exact hlen
  refine ⟨_, rfl, ?_, ?_⟩
  · intro hget
    refine (load_chunk_spec gunzip unzlib fuel _ x z f4.data d2
      (List.replicate PAD 0) d cid C ?_ ?_ ?_ ?_ hdec hload).1 hget
    · rw [getD_map_shiftE _ _ _ _ (by simp only [List.length_set]; omega)]
      rw [getD_set_self_int _ _ _ (by omega)]
      rw [shiftE, hfd2, if_neg (lt_irrefl _)]
      omega
    · rw [getD_map_shiftE _ _ _ _ (by simp only [List.length_set]; omega)]
      rw [getD_set_self_int _ _ _ (by omega)]
      rw [shiftE, hfd2, if_neg (lt_irrefl _)]
      rw [hfd2, Int.toNat_natCast, hf4len]
    · show f4.data ++ (natToBytesBE 4 (d2.length + 1) ++ cid :: d2
        ++ List.replicate PAD 0) = _
      rw [List.append_assoc, List.cons_append]
    · omega
  · intro t hget
    refine (load_chunk_spec gunzip unzlib fuel _ x z f4.data d2
      (List.replicate PAD 0) d cid C ?_ ?_ ?_ ?_ hdec hload).2 t hget
    · rw [getD_map_shiftE _ _ _ _ (by simp only [List.length_set]; omega)]
      rw [getD_set_self_int _ _ _ (by omega)]
      rw [shiftE, hfd2, if_neg (lt_irrefl _)]
      omega
    · rw [getD_map_shiftE _ _ _ _ (by simp only [List.length_set]; omega)]
      rw [getD_set_self_int _ _ _ (by omega)]
      rw [shiftE, hfd2, if_neg (lt_irrefl _)]
      rw [hfd2, Int.toNat_natCast, hf4len]
    · show f4.data ++ (natToBytesBE 4 (d2.length + 1) ++ cid :: d2
        ++ List.replicate PAD 0) = _
      rw [List.append_assoc, List.cons_append]
    · omega

set_option maxRecDepth 1024 in
/-- C5: saving then loading at the same slot returns the stored compound
exactly on a scope narrowed three times from the claim's "every valid
Compound": the compound's own name must be the EMPTY string (load_chunk
returns the decoded root's child indexed by the empty string, so any other
name ends in IndexError - see the counterexample); the tree must satisfy
validTag, which beyond constructor-maintained validity demands ASCII-only
child names (a non-thin name trips the C1 character-count prefix bug and
the saved bytes fail to decode) and string byte lengths at most 32767 (a
longer string makes save_chunk itself raise through the C7 TAG_Short
prefix); and the compressed data must fit the header's one-byte sector
count, with the timestamp a u32.  Under those hypotheses, for each
selector in {gzip, zlib, none} with the compressor inverted by the
matching decompressor, storing the compound in a fresh region, then
save_chunk, then load_chunk, returns exactly the stored tag. -/
theorem C5_save_then_load_roundtrips_empty_named_compound
    (gzipC zlibC : List Nat → List Nat)
    (gunzip unzlib : List Nat → Except PyErr (List Nat))
    (ch : List NBTTag) (x z : Nat) (k d d2 : List Nat) (now : Int) (fuel : Nat)
    (hx : x < 32) (hz : z < 32)
    (hv : validTag (NBTTag.TAG_Compound (some []) ch) = true)
    (hd : TAG_Compound.payload [NBTTag.TAG_Compound (some []) ch] = .ok d)
    (hfuel : childrenFuel [NBTTag.TAG_Compound (some []) ch] ≤ fuel)
    (hk : k = gzipName ∧ d2 = gzipC d ∧ gunzip d2 = .ok d
        ∨ k = zlibName ∧ d2 = zlibC d ∧ unzlib d2 = .ok d
        ∨ k = noneName ∧ d2 = d)
    (hd2 : d2.length + 6 ≤ 1044480)
    (hnow : 0 ≤ now ∧ now < 2 ^ 32) :
    ∃ st2 st3,
      RegionFile.save_chunk gzipC zlibC
        (RegionFile.set_chunk freshRegion x z
          (some (.tag (NBTTag.TAG_Compound (some []) ch)))) x z k now = .ok st2 ∧
      RegionFile.load_chunk gunzip unzlib fuel st2 x z =
        .ok (st3, some (.tag (NBTTag.TAG_Compound (some []) ch))) := by
  have hvC : validChildren [NBTTag.TAG_Compound (some []) ch] = true := by
    simp only [validTag] at hv
    simp only [validChildren, NBTTag.name, List.all_nil, List.all_cons, List.length_nil,
      Bool.and_true, Bool.true_and, validTag, hv]
    decide
  obtain ⟨bs, hbs, hLd⟩ := compound_roundtrip [NBTTag.TAG_Compound (some []) ch] none hvC
  rw [hd] at hbs
  have hbsd : d = bs := by
    injection hbs
  subst hbsd
  have hload := hLd fuel [] hfuel
  rw [List.append_nil] at hload
  obtain ⟨st2, hsave, _, hsome⟩ :=
    save_then_load_spec gzipC zlibC gunzip unzlib
      (RegionFile.set_chunk freshRegion x z
        (some (.tag (NBTTag.TAG_Compound (some []) ch))))
      x z 3 (NBTTag.TAG_Compound (some []) ch) k d d2 now fuel hx hz
      (by show ((List.replicate 1024 (none : Option ChunkVal)).set (x + z * 32)
            (some (.tag (NBTTag.TAG_Compound (some []) ch)))).getD (x + z * 32) none = _
          exact getD_set_self _ _ _ _ (by rw [List.length_replicate]; omega))
      (getD_replicate 1024 (x + z * 32) 0 0 (by omega))
      (List.length_replicate 1024 0)
      (by show (List.replicate 12288 (0 : Nat)).length = 4096 * 3
          rw [List.length_replicate])
      (by omega) (by omega)
      (by intro e he
          rw [List.eq_of_mem_replicate he]
          decide)
      (by intro e he
          rw [List.eq_of_mem_replicate he]
          decide)
      hd hload hk hd2 hnow
  obtain ⟨st3, hload2⟩ := hsome (NBTTag.TAG_Compound (some []) ch) rfl
  exact ⟨st2, st3, hsave, hload2⟩

set_option maxRecDepth 1024 in
/-- Counterexample to the claimed scope of C5: a valid compound whose name
is the nonempty string x, saved with compression none into a fresh region,
makes the following load_chunk at the same slot raise IndexError instead
of returning the tag, because load_chunk looks up the decoded root's child
named by the empty string. -/
theorem C5_nonempty_name_counterexample :
    ∃ st2,
      RegionFile.save_chunk (fun bs => bs) (fun bs => bs)
        (RegionFile.set_chunk freshRegion 0 0
          (some (.tag (NBTTag.TAG_Compound (some [120]) [])))) 0 0 noneName 0 =
        .ok st2 ∧
      RegionFile.load_chunk (fun bs => .ok bs) (fun bs => .ok bs)
        (childrenFuel [NBTTag.TAG_Compound (some [120]) []]) st2 0 0 =
        .error .indexErr := by
  obtain ⟨st2, hsave, hnone, _⟩ :=
    save_then_load_spec (fun bs => bs) (fun bs => bs)
      (fun bs => .ok bs) (fun bs => .ok bs)
      (RegionFile.set_chunk freshRegion 0 0
        (some (.tag (NBTTag.TAG_Compound (some [120]) []))))
      0 0 3 (NBTTag.TAG_Compound (some [120]) []) noneName
      [10, 0, 1, 120, 0, 0] [10, 0, 1, 120, 0, 0] 0
      (childrenFuel [NBTTag.TAG_Compound (some [120]) []])
      (by decide) (by decide)
      (by show ((List.replicate 1024 (none : Option ChunkVal)).set 0
            (some (.tag (NBTTag.TAG_Compound (some [120]) [])))).getD 0 none = _
          exact getD_set_self _ _ _ _ (by rw [List.length_replicate]; omega))
      (getD_replicate 1024 0 0 0 (by omega))
      (List.length_replicate 1024 0)
      (by show (List.replicate 12288 (0 : Nat)).length = 4096 * 3
          rw [List.length_replicate])
      (by omega) (by omega)
      (by intro e he
          rw [List.eq_of_mem_replicate he]
          decide)
      (by intro e he
          rw [List.eq_of_mem_replicate he]
          decide)
      rfl rfl
      (Or.inr (Or.inr ⟨rfl, rfl⟩)) (by decide) (by decide)
  exact ⟨st2, hsave, hnone rfl⟩

theorem C5_save_then_load_roundtrips_empty_named_compound_witness :
    ∃ st2 st3,
      RegionFile.save_chunk (fun bs => bs) (fun bs => bs)
        (RegionFile.set_chunk freshRegion 0 0
          (some (.tag (NBTTag.TAG_Compound (some [])
            [NBTTag.TAG_Byte (some [97]) 5])))) 0 0 noneName 0 = .ok st2 ∧
      RegionFile.load_chunk (fun bs => .ok bs) (fun bs => .ok bs) 9 st2 0 0 =
        .ok (st3, some (.tag (NBTTag.TAG_Compound (some [])
          [NBTTag.TAG_Byte (some [97]) 5]))) :=
  C5_save_then_load_roundtrips_empty_named_compound
    (fun bs => bs) (fun bs => bs) (fun bs => .ok bs) (fun bs => .ok bs)
    [NBTTag.TAG_Byte (some [97]) 5] 0 0 noneName
    [10, 0, 0, 1, 0, 1, 97, 5, 0, 0] [10, 0, 0, 1, 0, 1, 97, 5, 0, 0] 0 9
    (by decide) (by decide) (by decide) rfl (by decide)
    (Or.inr (Or.inr ⟨rfl, rfl⟩)) (by decide) (by decide)
